import Mathlib

/-!
# Verification of the ZON v8.0 "ClearText" codec

Shallow embedding of `src/zon-format/src/zon/encoder.py` and
`src/zon-format/src/zon/decoder.py` (the `ZonEncoder` / `ZonDecoder` classes),
over an explicit `Value` model of the JSON-like trees the codec exchanges.

Strings are modelled as `List Char` (`Str`) so that all parsing and printing
functions are structurally recursive and executable.  Python `dict`s are
modelled as insertion-ordered association lists with in-place update, which is
exactly CPython's observable dict behaviour.

Python `float` values are modelled by their `repr` string (constructor
`Value.float`).  Only canonical repr literals appear in any theorem below;
IEEE-754 normalisation of non-canonical literals (e.g. `float("1.50")`) is not
modelled, and the column analyzer treats columns containing floats as
non-sequential (the claims settled here never exercise those paths).
Character classes (`\w`, `str.isdigit`, `str.strip`, `float()` parsing) are
modelled over ASCII; Python additionally accepts some non-ASCII characters,
which no theorem below relies on.

The repository's `constants.py` and `exceptions.py` are not present under
`src/`; the constants are modelled from the spec (section 6 grammar):
table marker `@`, metadata separator `": "`, auto-increment token `_`,
repeat token `^`, and a single decode-error kind.
-/

namespace Zon

/-- Strings as explicit character lists, to keep every parser structurally
recursive and provable by induction. -/
abbrev Str := List Char

/-- Turn a Lean string literal into the `Str` representation. -/
def sl (s : String) : Str := s.data

/-- The JSON-like value model exchanged by `encode`/`decode` (spec section 3):
Null, Bool, Number (integer/float distinguished), String, Array, Object.
Objects are insertion-ordered association lists, as Python dicts are.
A float is carried as its Python `repr` string (see module docstring). -/
inductive Value where
  | null : Value
  | bool : Bool → Value
  | int : Int → Value
  | float : Str → Value
  | str : Str → Value
  | arr : List Value → Value
  | obj : List (Str × Value) → Value

/-- Modelled from the spec: `TABLE_MARKER` from the missing `constants.py`
(grammar line `table := "@" name "(" digits ")" ":" SP ...`). -/
def TABLE_MARKER : Char := '@'

/-- Modelled from the spec: `META_SEPARATOR` from the missing `constants.py`
(metadata lines are `key: value`, table headers `@name(count): cols`). -/
def META_SEPARATOR : Str := sl ": "

/-- Modelled from the spec: `GAS_TOKEN` (auto-increment token `_`) from the
missing `constants.py`. -/
def GAS_TOKEN : Str := sl "_"

/-- Modelled from the spec: `LIQUID_TOKEN` (repeat token `^`) from the missing
`constants.py`. -/
def LIQUID_TOKEN : Str := sl "^"

/-- Errors decode can raise.  `decodeError` models `ZonDecodeError` (modelled
from the spec's single DecodeError kind; `exceptions.py` is absent from
`src/`); `hostError` collapses the uncaught host-level exceptions
(`TypeError`/`AttributeError`/`KeyError`) that CPython raises inside
`_unflatten` when a dotted key indexes into an incompatible value. -/
inductive PyErr where
  | decodeError : PyErr
  | hostError : PyErr
deriving DecidableEq

/-! ## Character classes (ASCII models of the Python predicates) -/

/-- ASCII model of the whitespace stripped by Python `str.strip()` /
`str.rstrip()` and accepted around `float()` / `int()` literals. -/
def isPySpace (c : Char) : Bool :=
  c = ' ' || c = '\t' || c = '\n' || c = '\x0d' || c = '\x0b' || c = '\x0c'

/-- ASCII decimal digit. -/
def isDig (c : Char) : Bool := '0' ≤ c && c ≤ '9'

/-- ASCII model of the regex class `\w` used by `_parse_table_header`. -/
def isWordChar (c : Char) : Bool :=
  ('a' ≤ c && c ≤ 'z') || ('A' ≤ c && c ≤ 'Z') || isDig c || c = '_'

/-- Python `str.isdigit()` (ASCII model): nonempty and all digits. -/
def isDigitStr (s : Str) : Bool := !s.isEmpty && s.all isDig

/-- Python `str.strip()` (ASCII whitespace model). -/
def pyStrip (s : Str) : Str :=
  ((s.dropWhile isPySpace).reverse.dropWhile isPySpace).reverse

/-- Python `str.rstrip()` (ASCII whitespace model). -/
def pyRstrip (s : Str) : Str :=
  (s.reverse.dropWhile isPySpace).reverse

/-- Substring containment, modelling Python's `in` on strings. -/
def strContains (hay needle : Str) : Bool :=
  (List.range (hay.length + 1)).any (fun i => needle.isPrefixOf (hay.drop i))

/-- `hay.split(sep, 1)`: split on the first occurrence of `sep`.  Returns the
part before and the part after; `none` when `sep` does not occur. -/
def splitOnce (hay sep : Str) : Option (Str × Str) :=
  match hay with
  | [] => if sep.isEmpty then some ([], []) else none
  | c :: cs =>
    if sep.isPrefixOf (c :: cs) then some ([], (c :: cs).drop sep.length)
    else match splitOnce cs sep with
      | some (a, b) => some (c :: a, b)
      | none => none

/-- Python `sep.join(parts)` restricted to the `"\n".join` / `",".join` uses. -/
def joinWith (sep : Str) : List Str → Str
  | [] => []
  | [p] => p
  | p :: q :: ps => p ++ sep ++ joinWith sep (q :: ps)

/-! ## Python `int()` / `float()` literal recognition -/

/-- Consume a Python `digitpart`: digits with single underscores strictly
between digits.  Returns the accumulated value and the unconsumed rest;
stops (without failing) at the first character that cannot extend it. -/
def digitpartAux : Nat → Str → Nat × Str
  | acc, [] => (acc, [])
  | acc, c :: cs =>
    if isDig c then digitpartAux (acc * 10 + (c.toNat - 48)) cs
    else if c = '_' then
      match cs with
      | d :: cs' =>
        if isDig d then digitpartAux (acc * 10 + (d.toNat - 48)) cs'
        else (acc, c :: cs)
      | [] => (acc, c :: cs)
    else (acc, c :: cs)

/-- Parse a `digitpart` requiring at least one leading digit. -/
def parseDigitpart (s : Str) : Option (Nat × Str) :=
  match s with
  | c :: _ => if isDig c then some (digitpartAux 0 s) else none
  | [] => none

/-- Model of Python `int(s)` for base 10: optional surrounding whitespace,
optional sign, digitpart consuming the whole rest. -/
def pyIntParse (s : Str) : Option Int :=
  let t := pyStrip s
  let (sign, t) : Int × Str :=
    match t with
    | '-' :: r => (-1, r)
    | '+' :: r => (1, r)
    | r => (1, r)
  match parseDigitpart t with
  | some (n, []) => some (sign * n)
  | _ => none

/-- Case-insensitive match of `s` against the ASCII word `w`. -/
def matchWordCI (w : Str) (s : Str) : Bool :=
  s.length = w.length && (s.zip w).all (fun p => p.1.toLower = p.2)

/-- After the optional sign: the body of a Python float literal
(`inf`/`infinity`/`nan` case-insensitively, or a decimal form with optional
fraction and exponent). -/
def pyFloatBodyOk (t : Str) : Bool :=
  matchWordCI (sl "inf") t || matchWordCI (sl "infinity") t ||
  matchWordCI (sl "nan") t ||
  (let (intOk, rest) :=
    match parseDigitpart t with
    | some (_, r) => (true, r)
    | none => (false, t)
   let (fracOk, rest2) :=
    match rest with
    | '.' :: r =>
      match parseDigitpart r with
      | some (_, r') => (true, r')
      | none => (intOk, r)
    | _ => (intOk, rest)
   if !fracOk then false
   else match rest2 with
     | [] => true
     | e :: r =>
       if e = 'e' || e = 'E' then
         let r' := match r with
           | '-' :: r'' => r''
           | '+' :: r'' => r''
           | _ => r
         match parseDigitpart r' with
         | some (_, []) => true
         | _ => false
       else false)

/-- Model of Python `float(s)` succeeding (ASCII literals). -/
def pyFloatParses (s : Str) : Bool :=
  let t := pyStrip s
  let t := match t with
    | '-' :: r => r
    | '+' :: r => r
    | r => r
  pyFloatBodyOk t

/-- Digit accumulation with structural fuel (`fuel ≥ n` suffices, since
`n / 10 < n` for positive `n`). -/
def natDigitsCore : Nat → Nat → Str → Str
  | 0, n, acc => Char.ofNat (48 + n % 10) :: acc
  | fuel + 1, n, acc =>
    if n < 10 then Char.ofNat (48 + n) :: acc
    else natDigitsCore fuel (n / 10) (Char.ofNat (48 + n % 10) :: acc)

/-- Decimal digits of a natural number, modelling Python `str(n)` for `n ≥ 0`. -/
def natDigits (n : Nat) : Str := natDigitsCore n n []

/-- Model of Python `str(i)` on ints: canonical decimal with `-` sign. -/
def pyStrInt (i : Int) : Str :=
  if i < 0 then '-' :: natDigits i.natAbs else natDigits i.natAbs

/-! ## Dictionaries (insertion-ordered association lists) -/

/-- First binding of `k`, modelling Python `d[k]` / `d.get(k)`. -/
def dictGet {α : Type} (d : List (Str × α)) (k : Str) : Option α :=
  match d.find? (fun kv => kv.1 = k) with
  | some kv => some kv.2
  | none => none

/-- Python `d[k] = v`: replace in place if present, else append. -/
def dictSet {α : Type} (d : List (Str × α)) (k : Str) (v : α) : List (Str × α) :=
  match d with
  | [] => [(k, v)]
  | kv :: rest => if kv.1 = k then (k, v) :: rest else kv :: dictSet rest k v

/-- Python `dict(items)`: fold the pairs left to right with `d[k] = v`. -/
def dictOfItems {α : Type} (items : List (Str × α)) : List (Str × α) :=
  items.foldl (fun d kv => dictSet d kv.1 kv.2) []

/-- `s.split(ch)` for a single-character separator. -/
def splitOnCh (ch : Char) : Str → List Str
  | [] => [[]]
  | c :: cs =>
    match splitOnCh ch cs with
    | [] => [[c]]
    | p :: ps => if c = ch then [] :: p :: ps else (c :: p) :: ps

/-- Decimal value of a digit string (`int` on a digits-only string). -/
def digitsToNat (s : Str) : Nat :=
  s.foldl (fun a c => a * 10 + (c.toNat - 48)) 0

/-- Last element of a nonempty chain given head and tail. -/
def lastStr (x : Str) : List Str → Str
  | [] => x
  | y :: ys => lastStr y ys

/-! ## Value equality relations -/

/-- Python `==` on values, used by the encoder's repetition and auto-increment
checks: `True == 1`, `1 == 1.0` (via canonical repr literals), dict equality
key-set based.  Floats compare by repr literal, which coincides with Python
equality on the canonical literals used in this development. -/
def pyEq : Value → Value → Bool
  | .null, .null => true
  | .bool a, .bool b => a = b
  | .bool a, .int n => (if a then (1 : Int) else 0) = n
  | .int n, .bool a => (if a then (1 : Int) else 0) = n
  | .bool a, .float l => l = (if a then sl "1.0" else sl "0.0")
  | .float l, .bool a => l = (if a then sl "1.0" else sl "0.0")
  | .int n, .int m => n = m
  | .int n, .float l => l = pyStrInt n ++ sl ".0"
  | .float l, .int n => l = pyStrInt n ++ sl ".0"
  | .float l, .float l' => l = l'
  | .str s, .str t => s = t
  | .arr xs, .arr ys => pyEqList xs ys
  | .obj xs, .obj ys =>
    xs.length = ys.length && pyEqObj xs ys
  | _, _ => false
where
  pyEqList : List Value → List Value → Bool
  | [], [] => true
  | x :: xs, y :: ys => pyEq x y && pyEqList xs ys
  | _, _ => false
  pyEqObj : List (Str × Value) → List (Str × Value) → Bool
  | [], _ => true
  | (k, v) :: rest, ys =>
    (match ys.find? (fun kv => kv.1 = k) with
     | some kv => pyEq v kv.2
     | none => false) && pyEqObj rest ys

/-- The claims' "deep structural equality": like `pyEq` but distinguishing
booleans from numbers and integers from floats, and order-insensitive on
objects (Python dict equality).  This is the relation under which the spec's
round-trip property is stated. -/
def structValueEq : Value → Value → Bool
  | .null, .null => true
  | .bool a, .bool b => a = b
  | .int n, .int m => n = m
  | .float l, .float l' => l = l'
  | .str s, .str t => s = t
  | .arr xs, .arr ys => structListEq xs ys
  | .obj xs, .obj ys => xs.length = ys.length && structObjSub xs ys
  | _, _ => false
where
  structListEq : List Value → List Value → Bool
  | [], [] => true
  | x :: xs, y :: ys => structValueEq x y && structListEq xs ys
  | _, _ => false
  structObjSub : List (Str × Value) → List (Str × Value) → Bool
  | [], _ => true
  | (k, v) :: rest, ys =>
    (match ys.find? (fun kv => kv.1 = k) with
     | some kv => structValueEq v kv.2
     | none => false) && structObjSub rest ys

/-- Lexicographic comparison by code point: Python `<=` on strings. -/
def strLe : Str → Str → Bool
  | [], _ => true
  | _ :: _, [] => false
  | a :: as, b :: bs =>
    if a.toNat < b.toNat then true
    else if b.toNat < a.toNat then false
    else strLe as bs

/-- Recursively sort object keys: the identity on values that
`json.dumps(..., sort_keys=True)` serialises equally.  Used to model the
column analyzer's repetition detection. -/
def canonValue : Value → Value
  | .obj kvs => .obj (canonObj kvs)
  | .arr xs => .arr (canonList xs)
  | v => v
where
  canonList : List Value → List Value
  | [] => []
  | x :: xs => canonValue x :: canonList xs
  canonObj : List (Str × Value) → List (Str × Value)
  | [] => []
  | (k, v) :: rest => insortPair (k, canonValue v) (canonObj rest)
  insortPair : (Str × Value) → List (Str × Value) → List (Str × Value)
  | kv, [] => [kv]
  | kv, kw :: rest =>
    if strLe kv.1 kw.1 then kv :: kw :: rest else kw :: insortPair kv rest

/-! ## Stable sorts (Python `sorted` / `list.sort` are stable) -/

/-- Stable ascending insertion by string key: the inserted element goes before
later elements with an equal key, matching a stable sort where it originally
came first. -/
def insAsc {α : Type} (x : Str × α) : List (Str × α) → List (Str × α)
  | [] => [x]
  | y :: ys => if strLe x.1 y.1 then x :: y :: ys else y :: insAsc x ys

/-- Model of Python `sorted(d.items())` on a dict (keys pairwise distinct, so
tuple comparison never reaches the values): stable insertion sort. -/
def sortByKey {α : Type} : List (Str × α) → List (Str × α)
  | [] => []
  | x :: xs => insAsc x (sortByKey xs)

/-- Stable ascending insertion of a plain string. -/
def insStr (x : Str) : List Str → List Str
  | [] => [x]
  | y :: ys => if strLe x y then x :: y :: ys else y :: insStr x ys

/-- Model of Python `sorted(strings)`: stable insertion sort. -/
def sortStrs : List Str → List Str
  | [] => []
  | x :: xs => insStr x (sortStrs xs)

/-- Syntactic equality on values (order-sensitive on objects).  Two values are
`valueBeq` after `canonValue` exactly when `json.dumps(·, sort_keys=True)`
serialises them identically. -/
def valueBeq : Value → Value → Bool
  | .null, .null => true
  | .bool a, .bool b => a = b
  | .int n, .int m => n = m
  | .float l, .float l' => l = l'
  | .str s, .str t => s = t
  | .arr xs, .arr ys => valueBeqList xs ys
  | .obj xs, .obj ys => valueBeqObj xs ys
  | _, _ => false
where
  valueBeqList : List Value → List Value → Bool
  | [], [] => true
  | x :: xs, y :: ys => valueBeq x y && valueBeqList xs ys
  | _, _ => false
  valueBeqObj : List (Str × Value) → List (Str × Value) → Bool
  | [], [] => true
  | (k, v) :: xs, (k', v') :: ys => k = k' && valueBeq v v' && valueBeqObj xs ys
  | _, _ => false

/-! ## JSON string escaping (`json.dumps` on `str`, `ensure_ascii=True`) -/

/-- Lowercase hex digit of `n % 16`. -/
def hexDig (n : Nat) : Char :=
  let m := n % 16
  if m < 10 then Char.ofNat (48 + m) else Char.ofNat (87 + m)

/-- `\uXXXX` escape of a code unit. -/
def uEscape (n : Nat) : Str :=
  ['\\', 'u', hexDig (n / 4096), hexDig (n / 256), hexDig (n / 16), hexDig n]

/-- Escape one character as `json.dumps` (with `ensure_ascii=True`) does. -/
def jsonEscapeChar (c : Char) : Str :=
  if c = '"' then ['\\', '"']
  else if c = '\\' then ['\\', '\\']
  else if c = '\n' then ['\\', 'n']
  else if c = '\x0d' then ['\\', 'r']
  else if c = '\t' then ['\\', 't']
  else if c = '\x08' then ['\\', 'b']
  else if c = '\x0c' then ['\\', 'f']
  else if c.toNat < 32 || c.toNat ≥ 127 then
    if c.toNat < 65536 then uEscape c.toNat
    else
      uEscape (55296 + (c.toNat - 65536) / 1024) ++
      uEscape (56320 + (c.toNat - 65536) % 1024)
  else [c]

/-- Model of `json.dumps(s)` for a Python `str` value. -/
def jsonDumpsString (s : Str) : Str :=
  '"' :: s.flatMap jsonEscapeChar ++ ['"']

/-- Model of `json.dumps(data, separators=(',', ':'))` (the encoder's
fallback and degenerate rendering). -/
def pyJsonDumps : Value → Str
  | .null => sl "null"
  | .bool true => sl "true"
  | .bool false => sl "false"
  | .int i => pyStrInt i
  | .float l => l
  | .str s => jsonDumpsString s
  | .arr xs => '[' :: joinWith [','] (pyJsonDumpsList xs) ++ [']']
  | .obj kvs => '{' :: joinWith [','] (pyJsonDumpsObj kvs) ++ ['}']
where
  pyJsonDumpsList : List Value → List Str
  | [] => []
  | x :: xs => pyJsonDumps x :: pyJsonDumpsList xs
  pyJsonDumpsObj : List (Str × Value) → List Str
  | [] => []
  | (k, v) :: kvs => (jsonDumpsString k ++ ':' :: pyJsonDumps v) :: pyJsonDumpsObj kvs

/-! ## Encoder (`ZonEncoder`) -/

/-- RFC 4180 CSV quoting: double internal quotes, wrap in quotes
(`ZonEncoder._csv_quote`). -/
def csvQuote (s : Str) : Str :=
  '"' :: s.flatMap (fun c => if c = '"' then ['"', '"'] else [c]) ++ ['"']

/-- `ZonEncoder._needs_quotes`. -/
def needsQuotes (s : Str) : Bool :=
  if s.isEmpty then true
  else if s = sl "T" || s = sl "F" || s = sl "null" ||
          s = GAS_TOKEN || s = LIQUID_TOKEN then true
  else if isDigitStr s ||
          (match s with
           | '-' :: rest => isDigitStr rest
           | _ => false) then true
  else if pyFloatParses s then true
  else if ¬ pyStrip s = s then true
  else if s.any (fun c =>
      c = ',' || c = '\n' || c = '\x0d' || c = '\t' || c = '"' ||
      c = '[' || c = ']') then true
  else false

/-- `str(val)[:-2] if str(val).endswith(".0") else str(val)` for numbers. -/
def stripDot0 (s : Str) : Str :=
  if (sl ".0").isSuffixOf s then s.take (s.length - 2) else s

/-- The item-collection loop of `ZonEncoder._flatten` at
`current_depth = max_depth = 1`: the `current_depth < max_depth` test fails,
so every value (dicts included) is kept as-is under its dotted key.  The
source is depth-generic with `max_depth = 1` hardcoded at every call; the
two reachable levels are unrolled into `flattenItems1` / `flattenItems0`. -/
def flattenItems1 : List (Str × Value) → Str → List (Str × Value)
  | [], _ => []
  | (k, v) :: rest, parent =>
    let newKey := if parent.isEmpty then k else parent ++ '.' :: k
    (newKey, v) :: flattenItems1 rest parent

/-- The item-collection loop of `ZonEncoder._flatten` at `current_depth = 0`:
nested dicts are flattened one level deeper with a dotted key, everything
else is kept as-is. -/
def flattenItems0 : List (Str × Value) → Str → List (Str × Value)
  | [], _ => []
  | (k, v) :: rest, parent =>
    let newKey := if parent.isEmpty then k else parent ++ '.' :: k
    (match v with
     | .obj kvs' => dictOfItems (flattenItems1 kvs' newKey)
     | w => [(newKey, w)]) ++ flattenItems0 rest parent

/-- `ZonEncoder._flatten` with the default `parent = ''`, `max_depth = 1`,
`current_depth = 0` (its only calls): dotted-key flattening of nested
objects, one level deep; non-dict input yields the empty dict. -/
def pyFlatten (v : Value) (parent : Str) (depth : Nat) : List (Str × Value) :=
  match v with
  | .obj kvs =>
    dictOfItems (if depth = 0 then flattenItems0 kvs parent else flattenItems1 kvs parent)
  | _ => if parent.isEmpty then [] else [(parent, v)]

/-- `ZonEncoder._format_zon_node`: the nested-node grammar for compound cell
values (`{k:v,...}` / `[v,...]`, keys sorted, strings JSON-quoted when they
contain a structural character).  Each dict value is formatted and then the
items are sorted; since the sort is stable and key-only this agrees with the
source's `for k, v in sorted(val.items())`. -/
def formatZonNode : Value → Str
  | .null => sl "null"
  | .bool true => sl "T"
  | .bool false => sl "F"
  | .int i => stripDot0 (pyStrInt i)
  | .float l => stripDot0 l
  | .obj kvs =>
    '{' :: joinWith [',']
      ((sortByKey (zonNodeItems kvs)).map (fun kv =>
        (if needsQuotes kv.1 then csvQuote kv.1 else kv.1) ++ ':' :: kv.2)) ++
    ['}']
  | .arr xs => '[' :: joinWith [','] (zonNodeList xs) ++ [']']
  | .str s =>
    if s.any (fun c => c = ',' || c = ':' || c = '{' || c = '}' ||
                       c = '[' || c = ']')
    then jsonDumpsString s else s
where
  zonNodeItems : List (Str × Value) → List (Str × Str)
  | [] => []
  | (k, v) :: rest => (k, formatZonNode v) :: zonNodeItems rest
  zonNodeList : List Value → List Str
  | [] => []
  | x :: xs => formatZonNode x :: zonNodeList xs

/-- `ZonEncoder._format_value`: render one scalar or compound value as a cell
or metadata text, with reserved-token / numeric-looking strings doubly quoted
("type protection"). -/
def formatValue (v : Value) : Str :=
  match v with
  | .null => sl "null"
  | .bool true => sl "T"
  | .bool false => sl "F"
  | .int i => stripDot0 (pyStrInt i)
  | .float l => stripDot0 l
  | .arr xs =>
    let zonStr := formatZonNode (.arr xs)
    if needsQuotes zonStr then csvQuote zonStr else zonStr
  | .obj kvs =>
    let zonStr := formatZonNode (.obj kvs)
    if needsQuotes zonStr then csvQuote zonStr else zonStr
  | .str s =>
    let protect :=
      s = sl "T" || s = sl "F" || s = sl "null" ||
      s = GAS_TOKEN || s = LIQUID_TOKEN ||
      isDigitStr s ||
      (match s with
       | '-' :: rest => isDigitStr rest
       | _ => false) ||
      ¬ pyStrip s = s ||
      pyFloatParses s
    if protect then csvQuote (jsonDumpsString s)
    else if needsQuotes s then csvQuote s
    else s

/-- The `needs_type_protection` test of `ZonEncoder._format_value` on a
string: reserved tokens, integer-looking text, surrounding whitespace, or
`float()`-parsable text. -/
def needsTypeProtection (s : Str) : Bool :=
  s = sl "T" || s = sl "F" || s = sl "null" ||
  s = GAS_TOKEN || s = LIQUID_TOKEN ||
  isDigitStr s ||
  (match s with
   | '-' :: rest => isDigitStr rest
   | _ => false) ||
  ¬ pyStrip s = s ||
  pyFloatParses s

/-- Per-column compression analysis result (`ZonEncoder._analyze_columns`). -/
structure ColInfo where
  isSeq : Bool
  step : Int
  hasRep : Bool

/-- Does the list contain two `canonValue`-equal entries? -/
def hasDupBy : List Value → Bool
  | [] => false
  | x :: xs => xs.any (fun y => valueBeq x y) || hasDupBy xs

/-- `ZonEncoder._analyze_columns` for one column.  Sequential detection is
modelled for all-integer columns; a column containing a float is treated as
non-sequential (see module docstring). -/
def analyzeCol (vals : List (Option Value)) : ColInfo :=
  let allInt := vals.all (fun o => match o with
    | some (.int _) => true
    | _ => false)
  let nums : List Int := vals.filterMap (fun o => match o with
    | some (.int n) => some n
    | _ => none)
  let diffs := (nums.zip nums.tail).map (fun p => p.2 - p.1)
  let seq := allInt && decide (vals.length > 1) &&
    (match diffs with
     | [] => false
     | d :: ds => ds.all (fun d' => d' = d))
  let step := match diffs with
    | d :: _ => d
    | [] => 1
  let rep := decide (vals.length > 1) &&
    hasDupBy (vals.map (fun o => canonValue (o.getD .null)))
  ⟨seq, if seq then step else 1, rep⟩

/-- One row's tokens in `ZonEncoder._write_table`, with the updated
per-column previous values.  `prev` maps each column to the previous row's
value (`Value.null` standing for Python `None`). -/
def rowTokens (cols : List Str) (firstCol : Str)
    (analysis : Str → ColInfo) (i : Nat) (row : List (Str × Value))
    (prev : List (Str × Value)) : List Str × List (Str × Value) :=
  match cols with
  | [] => ([], prev)
  | col :: rest =>
    let val := (dictGet row col).getD .null
    let ci := analysis col
    let pv := (dictGet prev col).getD .null
    let gas := col = firstCol && ci.isSeq && decide (i > 0) &&
      (match pv with
       | .int p => pyEq val (.int (p + ci.step))
       | _ => false)
    if gas then
      let (toks, prev') := rowTokens rest firstCol analysis i row (dictSet prev col val)
      (GAS_TOKEN :: toks, prev')
    else
      let formatted := formatValue val
      let tok :=
        if decide (i > 0) && pyEq val pv && ci.hasRep &&
           decide (formatted.length > 1)
        then LIQUID_TOKEN else formatted
      let (toks, prev') := rowTokens rest firstCol analysis i row (dictSet prev col val)
      (tok :: toks, prev')

/-- The data rows of `ZonEncoder._write_table`. -/
def tableRows (cols : List Str) (firstCol : Str) (analysis : Str → ColInfo) :
    Nat → List (Str × Value) → List (List (Str × Value)) → List Str
  | _, _, [] => []
  | i, prev, row :: rest =>
    let (toks, prev') := rowTokens cols firstCol analysis i row prev
    joinWith [','] toks :: tableRows cols firstCol analysis (i + 1) prev' rest

/-- The sorted column list of a table (`sorted(set().union(*keys))`). -/
def tableCols (flatStream : List (List (Str × Value))) : List Str :=
  sortStrs ((flatStream.flatMap (fun d => d.map Prod.fst)).eraseDups)

/-- `ZonEncoder._write_table`: header plus compressed CSV rows. -/
def writeTable (stream : List Value) (key : Str) : List Str :=
  if stream.isEmpty then []
  else
    let flatStream := stream.map (fun r => pyFlatten r [] 0)
    let cols := tableCols flatStream
    let analysis := fun c => analyzeCol (flatStream.map (fun d => dictGet d c))
    let header :=
      TABLE_MARKER :: key ++ '(' :: natDigits stream.length ++ [')'] ++
      META_SEPARATOR ++ joinWith [','] cols
    let firstCol := cols.headD []
    let prev0 := cols.map (fun c => (c, Value.null))
    header :: tableRows cols firstCol analysis 0 prev0 flatStream

/-- `ZonEncoder._write_metadata`: flatten, sort by key, render
`key: value` lines. -/
def writeMetadata (metadata : List (Str × Value)) : List Str :=
  (sortByKey (pyFlatten (.obj metadata) [] 0)).map
    (fun kv => kv.1 ++ META_SEPARATOR ++ formatValue kv.2)

/-- Is this entry a stream candidate in `_extract_primary_stream`
(a non-empty list whose first element is a dict)? -/
def isCandidate : Value → Bool
  | .arr (x :: _) =>
    match x with
    | .obj _ => true
    | _ => false
  | _ => false

/-- Candidate score: `len(v) * len(v[0].keys())`. -/
def candScore : Value → Nat
  | .arr (x :: xs) =>
    (xs.length + 1) * (match x with
      | .obj kvs => kvs.length
      | _ => 0)
  | _ => 0

/-- Stable descending insertion by score (`list.sort(key=score,
reverse=True)` is stable, so any stable descending sort is the model). -/
def insDesc (x : (Str × Value) × Nat) :
    List ((Str × Value) × Nat) → List ((Str × Value) × Nat)
  | [] => [x]
  | y :: ys => if x.2 ≥ y.2 then x :: y :: ys else y :: insDesc x ys

/-- Stable descending sort of scored candidates. -/
def sortCandsDesc : List ((Str × Value) × Nat) → List ((Str × Value) × Nat)
  | [] => []
  | x :: xs => insDesc x (sortCandsDesc xs)

/-- The scored candidate list of an object's entries, in entry order. -/
def candidatesOf (kvs : List (Str × Value)) : List ((Str × Value) × Nat) :=
  (kvs.filter (fun kv => isCandidate kv.2)).map (fun kv => (kv, candScore kv.2))

/-- `ZonEncoder._extract_primary_stream`: root promotion.  Returns
`(stream_data, metadata, stream_key)`. -/
def extractPrimaryStream (v : Value) :
    Option (List Value) × List (Str × Value) × Option Str :=
  match v with
  | .arr xs => (some xs, [], none)
  | .obj kvs =>
    match sortCandsDesc (candidatesOf kvs) with
    | [] => (none, kvs, none)
    | (kv, _) :: _ =>
      let stream := match kv.2 with
        | .arr xs => xs
        | _ => []
      (some stream, dictOfItems (kvs.filter (fun kw => !(kw.1 = kv.1 : Bool))),
       some kv.1)
  | _ => (none, [], none)

/-- `ZonEncoder.encode` / the module-level `encode`. -/
def encode (v : Value) : Str :=
  let e := extractPrimaryStream v
  let streamData := e.1
  let metadata := e.2.1
  let streamKey := e.2.2
  let streamTruthy := match streamData with
    | some (_ :: _) => true
    | _ => false
  if !streamTruthy && metadata.isEmpty then pyJsonDumps v
  else
    let streamKey := if streamTruthy && streamKey = none then some (sl "data")
      else streamKey
    let metaLines := if metadata.isEmpty then [] else writeMetadata metadata
    let output :=
      match streamData, streamKey with
      | some (r :: rs), some k =>
        if k.isEmpty then metaLines
        else metaLines ++ (if metaLines.isEmpty then [] else [[]]) ++
          writeTable (r :: rs) k
      | _, _ => metaLines
    joinWith ['\n'] output

/-! ## Decoder (`ZonDecoder`) -/

/-- Single-line CSV tokenisation with the Python `csv` module's default
dialect (`delimiter=','`, `quotechar='"'`, `doublequote=True`, non-strict):
a quote opens a quoted section only at field start, `""` inside quotes is a
literal quote, text after a closing quote is appended literally.  States:
0 = field start, 1 = unquoted field, 2 = inside quotes, 3 = just after a
quote inside a quoted field. -/
def csvAux : Nat → Str → Str → List Str → List Str
  | _, [], cur, acc => (cur.reverse :: acc).reverse
  | st, c :: cs, cur, acc =>
    if st = 0 then
      if c = '"' then csvAux 2 cs cur acc
      else if c = ',' then csvAux 0 cs [] (cur.reverse :: acc)
      else csvAux 1 cs (c :: cur) acc
    else if st = 1 then
      if c = ',' then csvAux 0 cs [] (cur.reverse :: acc)
      else csvAux 1 cs (c :: cur) acc
    else if st = 2 then
      if c = '"' then csvAux 3 cs cur acc
      else csvAux 2 cs (c :: cur) acc
    else
      if c = '"' then csvAux 2 cs ('"' :: cur) acc
      else if c = ',' then csvAux 0 cs [] (cur.reverse :: acc)
      else csvAux 1 cs (c :: cur) acc

/-- `list(csv.reader([line]))[0]`: the empty line yields an empty row. -/
def parseCsvLine (line : Str) : List Str :=
  if line.isEmpty then [] else csvAux 0 line [] []

/-- Hex digit value, both cases (`\uXXXX` escapes). -/
def hexVal (c : Char) : Option Nat :=
  if isDig c then some (c.toNat - 48)
  else if 'a' ≤ c && c ≤ 'f' then some (c.toNat - 87)
  else if 'A' ≤ c && c ≤ 'F' then some (c.toNat - 55)
  else none

/-- Four hex digits to a code unit. -/
def hex4 : Str → Option (Nat × Str)
  | a :: b :: c :: d :: rest =>
    match hexVal a, hexVal b, hexVal c, hexVal d with
    | some x, some y, some z, some w => some (((x * 16 + y) * 16 + z) * 16 + w, rest)
    | _, _, _, _ => none
  | _ => none

/-- Body of a JSON string literal after the opening quote (strict mode: raw
control characters rejected).  Returns the decoded content and the rest.
Surrogate-pair `\u` escapes are combined; a lone surrogate (which CPython
would keep) has no `Char` representation and is modelled as a parse
failure — no theorem below exercises one. -/
def jsonStrBody : Str → Option (Str × Str)
  | [] => none
  | '"' :: rest => some ([], rest)
  | '\\' :: 'u' :: a :: b :: c :: d :: rest =>
    (match hexVal a, hexVal b, hexVal c, hexVal d with
     | some x, some y, some z, some w =>
       let n := ((x * 16 + y) * 16 + z) * 16 + w
       if 55296 ≤ n && n < 56320 then
         match rest with
         | '\\' :: 'u' :: a2 :: b2 :: c2 :: d2 :: rest2 =>
           (match hexVal a2, hexVal b2, hexVal c2, hexVal d2 with
            | some x2, some y2, some z2, some w2 =>
              let m := ((x2 * 16 + y2) * 16 + z2) * 16 + w2
              if 56320 ≤ m && m < 57344 then
                match jsonStrBody rest2 with
                | some (content, r) =>
                  some (Char.ofNat (65536 + (n - 55296) * 1024 + (m - 56320)) ::
                        content, r)
                | none => none
              else none
            | _, _, _, _ => none)
         | _ => none
       else if 56320 ≤ n && n < 57344 then none
       else
         match jsonStrBody rest with
         | some (content, r) => some (Char.ofNat n :: content, r)
         | none => none
     | _, _, _, _ => none)
  | ['\\'] => none
  | '\\' :: e :: rest =>
    let c? : Option Char :=
      if e = '"' then some '"'
      else if e = '\\' then some '\\'
      else if e = '/' then some '/'
      else if e = 'b' then some '\x08'
      else if e = 'f' then some '\x0c'
      else if e = 'n' then some '\n'
      else if e = 'r' then some '\x0d'
      else if e = 't' then some '\t'
      else none
    match c? with
    | some c =>
      match jsonStrBody rest with
      | some (content, r) => some (c :: content, r)
      | none => none
    | none => none
  | c :: rest =>
    if c.toNat < 32 then none
    else
      match jsonStrBody rest with
      | some (content, r) => some (c :: content, r)
      | none => none

/-- `json.loads(s)` at the decoder's call sites, which all start with `"`:
a full JSON string literal, allowing trailing JSON whitespace. -/
def jsonLoadsStringLit (s : Str) : Option Str :=
  match s with
  | '"' :: rest =>
    match jsonStrBody rest with
    | some (content, rest') =>
      if rest'.all (fun c => c = ' ' || c = '\t' || c = '\n' || c = '\x0d')
      then some content else none
    | none => none
  | _ => none

/-- The in-quote toggle of `_parse_zon_node`'s scanners: a quote character
flips the state unless the previously appended character (`cur`'s head, the
accumulator being reversed) is a backslash. -/
def quoteToggle (c : Char) (cur : Str) (inQ : Bool) : Bool :=
  if c = '"' && (cur.isEmpty || !(cur.headD ' ' = '\\')) then !inQ else inQ

/-- The character-by-character top-level splitter of
`ZonDecoder._parse_zon_node` for list content: `cur` is the reversed current
item; a top-level comma emits the item (even when empty), the final item is
emitted only when nonempty. -/
def zonListGo : Int → Bool → Str → Str → List Str
  | _, _, cur, [] => if cur.isEmpty then [] else [cur.reverse]
  | depth, inQ, cur, c :: cs =>
    let inQ' := quoteToggle c cur inQ
    if !inQ' && (c = '[' || c = '{') then zonListGo (depth + 1) inQ' (c :: cur) cs
    else if !inQ' && (c = ']' || c = '}') then zonListGo (depth - 1) inQ' (c :: cur) cs
    else if !inQ' && c = ',' && depth = 0 then
      cur.reverse :: zonListGo depth inQ' [] cs
    else zonListGo depth inQ' (c :: cur) cs

/-- The analogous splitter for dict content: raw `(key, value)` text pieces.
A top-level `:` fixes the pending key; a top-level comma with no pending key
is skipped without clearing the current text, as in the source. -/
def zonDictGo : Int → Bool → Option Str → Str → Str → List (Str × Str)
  | _, _, curKey, cur, [] =>
    match curKey with
    | some k => [(k, cur.reverse)]
    | none => []
  | depth, inQ, curKey, cur, c :: cs =>
    let inQ' := quoteToggle c cur inQ
    if !inQ' && (c = '[' || c = '{') then
      zonDictGo (depth + 1) inQ' curKey (c :: cur) cs
    else if !inQ' && (c = ']' || c = '}') then
      zonDictGo (depth - 1) inQ' curKey (c :: cur) cs
    else if !inQ' && c = ':' && depth = 0 && curKey.isNone then
      zonDictGo depth inQ' (some cur.reverse) [] cs
    else if !inQ' && c = ',' && depth = 0 then
      match curKey with
      | some k => (k, cur.reverse) :: zonDictGo depth inQ' none [] cs
      | none => zonDictGo depth inQ' none cur cs
    else zonDictGo depth inQ' curKey (c :: cur) cs

theorem zonListGo_length_le :
    ∀ cs depth inQ cur (p : Str), p ∈ zonListGo depth inQ cur cs →
    p.length ≤ cur.length + cs.length := by
  intro cs
  induction cs with
  | nil =>
    intro depth inQ cur p h
    simp only [zonListGo] at h
    split at h
    · simp at h
    · simp only [List.mem_singleton] at h
      subst h
      simp
  | cons c cs ih =>
    intro depth inQ cur p h
    simp only [zonListGo] at h
    split at h
    · have := ih _ _ _ _ h
      simp only [List.length_cons] at this ⊢
      omega
    split at h
    · have := ih _ _ _ _ h
      simp only [List.length_cons] at this ⊢
      omega
    split at h
    · rcases List.mem_cons.mp h with h | h
      · subst h
        simp only [List.length_reverse, List.length_cons]
        omega
      · have := ih _ _ _ _ h
        simp only [List.length_nil, List.length_cons] at this ⊢
        omega
    · have := ih _ _ _ _ h
      simp only [List.length_cons] at this ⊢
      omega

theorem zonDictGo_length_le :
    ∀ cs depth inQ curKey cur (k p : Str), (k, p) ∈ zonDictGo depth inQ curKey cur cs →
    p.length ≤ cur.length + cs.length := by
  intro cs
  induction cs with
  | nil =>
    intro depth inQ curKey cur k p h
    simp only [zonDictGo] at h
    split at h
    · simp only [List.mem_singleton, Prod.mk.injEq] at h
      rcases h with ⟨_, h⟩
      subst h
      simp
    · simp at h
  | cons c cs ih =>
    intro depth inQ curKey cur k p h
    simp only [zonDictGo] at h
    split at h
    · have := ih _ _ _ _ _ _ h
      simp only [List.length_cons] at this ⊢
      omega
    split at h
    · have := ih _ _ _ _ _ _ h
      simp only [List.length_cons] at this ⊢
      omega
    split at h
    · have := ih _ _ _ _ _ _ h
      simp only [List.length_nil, List.length_cons] at this ⊢
      omega
    split at h
    · split at h
      · rcases List.mem_cons.mp h with h | h
        · rcases Prod.mk.injEq .. ▸ h with ⟨_, h2⟩
          subst h2
          simp only [List.length_reverse, List.length_cons]
          omega
        · have := ih _ _ _ _ _ _ h
          simp only [List.length_nil, List.length_cons] at this ⊢
          omega
      · have := ih _ _ _ _ _ _ h
        simp only [List.length_cons] at this ⊢
        omega
    · have := ih _ _ _ _ _ _ h
      simp only [List.length_cons] at this ⊢
      omega

theorem length_dropWhile_le' {α : Type} (p : α → Bool) (l : List α) :
    (l.dropWhile p).length ≤ l.length := by
  induction l with
  | nil => simp
  | cons x xs ih =>
    rw [List.dropWhile_cons]
    split
    · exact Nat.le_succ_of_le ih
    · exact Nat.le_refl _

theorem pyStrip_length_le (s : Str) : (pyStrip s).length ≤ s.length := by
  unfold pyStrip
  have h1 := length_dropWhile_le' isPySpace s
  have h2 := length_dropWhile_le' isPySpace (s.dropWhile isPySpace).reverse
  simp only [List.length_reverse] at h2 ⊢
  omega

/-- A dict key text piece as `_parse_zon_node` interprets it: stripped, and
JSON-unquoted when it starts with a quote (raw text kept on failure). -/
def zonDictKey (raw : Str) : Str :=
  let ks := pyStrip raw
  match ks with
  | '"' :: _ =>
    match jsonLoadsStringLit ks with
    | some s => s
    | none => ks
  | _ => ks

/-- `ZonDecoder._parse_zon_node`: recursive-descent parser for the nested
`{k:v,...}` / `[v,...]` cell grammar.  Recursion is on the text length; the
pieces produced by the top-level splitters are strictly shorter than the
bracketed text. -/
def parseZonNode (text : Str) : Value :=
  let t := pyStrip text
  if t.isEmpty then .null
  else if t = sl "T" then .bool true
  else if t = sl "F" then .bool false
  else if t = sl "null" then .null
  else if isDigitStr t then .int (digitsToNat t)
  else if pyFloatParses t then .float t
  else if t.headD ' ' = '"' then
    match jsonLoadsStringLit t with
    | some s => .str s
    | none => .str t
  else if t.headD ' ' = '[' && t.getLastD ' ' = ']' then
    let content := (t.drop 1).take (t.length - 2)
    if (pyStrip content).isEmpty then .arr []
    else
      .arr ((zonListGo 0 false [] content).attach.map
        (fun p => parseZonNode p.1))
  else if t.headD ' ' = '{' && t.getLastD ' ' = '}' then
    let content := (t.drop 1).take (t.length - 2)
    if (pyStrip content).isEmpty then .obj []
    else
      .obj ((zonDictGo 0 false none [] content).attach.foldl
        (fun d p => dictSet d (zonDictKey p.1.1) (parseZonNode p.1.2)) [])
  else .str t
termination_by text.length
decreasing_by
  · have hmem := p.2
    have hle := zonListGo_length_le content 0 false [] p.1 hmem
    have hc : content.length ≤ t.length - 2 := by
      simp only [content, List.length_take, List.length_drop]
      omega
    have hts := pyStrip_length_le text
    have htt : t.length = (pyStrip text).length := rfl
    have htne : ¬ t.isEmpty := by assumption
    have hpos : 0 < t.length := by
      rcases t with _ | ⟨a, as⟩
      · simp [List.isEmpty] at htne
      · simp
    simp only [List.length_nil] at hle
    omega
  · have hmem := p.2
    have hle := zonDictGo_length_le content 0 false none [] p.1.1 p.1.2 hmem
    have hc : content.length ≤ t.length - 2 := by
      simp only [content, List.length_take, List.length_drop]
      omega
    have hts := pyStrip_length_le text
    have htt : t.length = (pyStrip text).length := rfl
    have htne : ¬ t.isEmpty := by assumption
    have hpos : 0 < t.length := by
      rcases t with _ | ⟨a, as⟩
      · simp [List.isEmpty] at htne
      · simp
    simp only [List.length_nil] at hle
    omega

/-- `ZonDecoder._parse_value`: one textual cell or metadata value to a
`Value`. -/
def parseValue (v : Str) : Value :=
  let val := pyStrip v
  if val.isEmpty then .null
  else if val = sl "T" then .bool true
  else if val = sl "F" then .bool false
  else if val = sl "null" then .null
  else if (val.headD ' ' = '{' && val.getLastD ' ' = '}') ||
          (val.headD ' ' = '[' && val.getLastD ' ' = ']') then
    parseZonNode val
  else if val.contains '.' then
    if pyFloatParses val then .float val
    else if val.headD ' ' = '"' && val.getLastD ' ' = '"' then
      match jsonLoadsStringLit val with
      | some s => .str s
      | none => .str val
    else .str val
  else
    match pyIntParse val with
    | some n => .int n
    | none =>
      if val.headD ' ' = '"' && val.getLastD ' ' = '"' then
        match jsonLoadsStringLit val with
        | some s => .str s
        | none => .str val
      else .str val

/-- Decode-time table state (`_parse_table_header`'s dict): columns, rows so
far, per-column previous values (`Value.null` for Python `None`), row index
and the declared row count. -/
structure TableState where
  cols : List Str
  rows : List (List (Str × Value))
  prevVals : List (Str × Value)
  rowIndex : Nat
  expectedRows : Nat

/-- `ZonDecoder._parse_table_header`: the fixed regex
`^@(\w+)\((\d+)\): (.+)$`; `none` models the raised `ZonDecodeError`. -/
def parseTableHeader (line : Str) : Option (Str × TableState) :=
  match line with
  | '@' :: rest =>
    let name := rest.takeWhile isWordChar
    let r1 := rest.dropWhile isWordChar
    if name.isEmpty then none
    else
      match r1 with
      | '(' :: r2 =>
        let ds := r2.takeWhile isDig
        let r3 := r2.dropWhile isDig
        if ds.isEmpty then none
        else
          match r3 with
          | ')' :: ':' :: ' ' :: r4 =>
            if r4.isEmpty then none
            else
              let cols := (splitOnCh ',' r4).map pyStrip
              some (name,
                { cols := cols
                  rows := []
                  prevVals := cols.map (fun c => (c, Value.null))
                  rowIndex := 0
                  expectedRows := digitsToNat ds })
          | _ => none
      | _ => none
  | _ => none

/-- Best-effort addition of 1 to a float repr literal (decoder's
`prev + 1` when the previous value is a float): adds one to the integral
part of a plain nonnegative `D.F` literal, other shapes returned unchanged
(not modelled; no theorem exercises them). -/
def floatLitAddOne (l : Str) : Str :=
  let ip := l.takeWhile isDig
  let rest := l.dropWhile isDig
  match rest with
  | '.' :: _ => if ip.isEmpty then l else natDigits (digitsToNat ip + 1) ++ rest
  | _ => l

/-- The per-cell resolution of `_parse_table_row`: auto-increment and repeat
tokens against the previous value, otherwise `_parse_value`. -/
def cellValue (tok : Str) (prevVal : Value) (rowIdx : Nat) : Value :=
  if tok = GAS_TOKEN then
    match prevVal with
    | .int n => .int (n + 1)
    | .bool b => .int ((if b then 1 else 0) + 1)
    | .float l => .float (floatLitAddOne l)
    | _ => .int (rowIdx + 1)
  else if tok = LIQUID_TOKEN then prevVal
  else parseValue tok

/-- The `for i, (col, tok) in enumerate(zip(cols, tokens))` loop of
`_parse_table_row`: builds the row dict and updates `prev_vals`. -/
def rowCells : List Str → List Str → Nat → List (Str × Value) →
    List (Str × Value) → List (Str × Value) × List (Str × Value)
  | [], _, _, row, prev => (row, prev)
  | _ :: _, [], _, row, prev => (row, prev)
  | col :: cols, tok :: toks, rowIdx, row, prev =>
    let val := cellValue tok ((dictGet prev col).getD .null) rowIdx
    rowCells cols toks rowIdx (dictSet row col val) (dictSet prev col val)

/-- `ZonDecoder._parse_table_row`: CSV-tokenise, right-pad with empty cells,
resolve each cell, append the row and advance the row index. -/
def parseTableRow (line : Str) (t : TableState) : TableState :=
  let tokens := parseCsvLine line
  let tokens := tokens ++ List.replicate (t.cols.length - tokens.length) []
  let res := rowCells t.cols tokens t.rowIndex [] t.prevVals
  { t with rows := t.rows ++ [res.1], prevVals := res.2, rowIndex := t.rowIndex + 1 }

/-- `ZonDecoder._unflatten`, one dotted key: walk/create nested containers;
a numeric path segment performs one list-indexing step and stops the walk
(the source `break`s after `parts.pop(i+1)`); a non-dict intermediate stops
the walk and assigns at the current level; a numeric final segment is
dropped.  Host-level exceptions (`len()`/`append`/indexing on incompatible
values) surface as `hostError`. -/
def insertDotted (d : List (Str × Value)) :
    List Str → Value → Except PyErr (List (Str × Value))
  | [], _ => .ok d
  | [final], v =>
    .ok (if isDigitStr final then d else dictSet d final v)
  | part :: next :: rest, v =>
    if isDigitStr next then
      let idx := digitsToNat next
      let fin := lastStr part rest
      match (dictGet d part).getD (Value.arr []) with
      | .arr xs =>
        let xs := if xs.length ≤ idx
          then xs ++ List.replicate (idx + 1 - xs.length) (Value.obj [])
          else xs
        match xs.getD idx (Value.obj []) with
        | .obj sub =>
          if isDigitStr fin then .ok (dictSet d part (.arr xs))
          else .ok (dictSet d part (.arr (xs.set idx (.obj (dictSet sub fin v)))))
        | _ =>
          if isDigitStr fin then .ok (dictSet d part (.arr xs))
          else .error .hostError
      | .str s =>
        if s.length ≤ idx then .error .hostError
        else if isDigitStr fin then .ok d
        else .error .hostError
      | _ => .error .hostError
    else
      match dictGet d part with
      | none =>
        match insertDotted [] (next :: rest) v with
        | .ok sub' => .ok (dictSet d part (.obj sub'))
        | .error e => .error e
      | some (.obj sub) =>
        match insertDotted sub (next :: rest) v with
        | .ok sub' => .ok (dictSet d part (.obj sub'))
        | .error e => .error e
      | some _ =>
        let fin := lastStr next rest
        .ok (if isDigitStr fin then d else dictSet d fin v)

/-- One entry of `ZonDecoder._unflatten`'s loop: undotted keys are assigned
directly, dotted keys walk the nested structure. -/
def unflattenStep (d : List (Str × Value)) (kv : Str × Value) :
    Except PyErr (List (Str × Value)) :=
  if !kv.1.contains '.' then .ok (dictSet d kv.1 kv.2)
  else insertDotted d (splitOnCh '.' kv.1) kv.2

/-- The `for key, value in d.items()` loop of `_unflatten`, with explicit
exception propagation. -/
def unflattenFold : List (Str × Value) → List (Str × Value) →
    Except PyErr (List (Str × Value))
  | [], d => .ok d
  | kv :: rest, d =>
    match unflattenStep d kv with
    | .error e => .error e
    | .ok d' => unflattenFold rest d'

/-- `ZonDecoder._unflatten` over a whole flat dict. -/
def pyUnflatten (flat : List (Str × Value)) :
    Except PyErr (List (Str × Value)) :=
  unflattenFold flat []

/-- The decoder's line-classification state: metadata so far, tables so far
(keyed by name, insertion-ordered), and the open table's name. -/
structure DecSt where
  metadata : List (Str × Value)
  tables : List (Str × TableState)
  cur : Option Str

/-- The metadata branch of the decoder's line loop: on a `key: value` match,
close any open table and store the parsed entry; otherwise the line is
silently ignored. -/
def decodeMetaLine (st : DecSt) (line : Str) : Except PyErr DecSt :=
  if strContains line META_SEPARATOR then
    match splitOnce line META_SEPARATOR with
    | some (key, v) =>
      .ok { st with
            metadata := dictSet st.metadata (pyStrip key) (parseValue (pyStrip v)),
            cur := none }
    | none => .ok st
  else .ok st

/-- The line loop body on an already-rstripped line: header lines are checked
first, whatever the state; then data rows of an open table with rows
remaining; then metadata lines. -/
def decodeLineStripped (st : DecSt) (line : Str) : Except PyErr DecSt :=
  if line.isEmpty then .ok st
  else if line.headD ' ' = TABLE_MARKER then
    match parseTableHeader line with
    | none => .error .decodeError
    | some (name, t) =>
      .ok { st with tables := dictSet st.tables name t, cur := some name }
  else
    match st.cur with
    | some name =>
      match dictGet st.tables name with
      | some t =>
        if t.rowIndex < t.expectedRows then
          let t' := parseTableRow line t
          .ok { st with
                tables := dictSet st.tables name t',
                cur := if t'.expectedRows ≤ t'.rowIndex then none else some name }
        else decodeMetaLine st line
      | none => decodeMetaLine st line
    | none => decodeMetaLine st line

/-- One iteration of the `for line in lines` loop of `ZonDecoder.decode`
(`line = line.rstrip()` first). -/
def decodeLine (st : DecSt) (rawLine : Str) : Except PyErr DecSt :=
  decodeLineStripped st (pyRstrip rawLine)

/-- The row list of `ZonDecoder._reconstruct_table`: unflatten every row. -/
def reconstructRows : List (List (Str × Value)) → Except PyErr (List Value)
  | [] => .ok []
  | r :: rest =>
    match pyUnflatten r with
    | .error e => .error e
    | .ok r' =>
      match reconstructRows rest with
      | .error e => .error e
      | .ok xs => .ok (Value.obj r' :: xs)

/-- `ZonDecoder._reconstruct_table`. -/
def reconstructTable (t : TableState) : Except PyErr Value :=
  match reconstructRows t.rows with
  | .error e => .error e
  | .ok rows => .ok (.arr rows)

/-- The `for table_name, table in tables.items()` merge loop of `decode`. -/
def mergeTables : List (Str × TableState) → List (Str × Value) →
    Except PyErr (List (Str × Value))
  | [], md => .ok md
  | (name, t) :: rest, md =>
    match reconstructTable t with
    | .error e => .error e
    | .ok tv => mergeTables rest (dictSet md name tv)

/-- The `for line in lines` loop of `decode`, with explicit exception
propagation. -/
def decodeLoop : List Str → DecSt → Except PyErr DecSt
  | [], st => .ok st
  | l :: ls, st =>
    match decodeLine st l with
    | .error e => .error e
    | .ok st' => decodeLoop ls st'

/-- The decoder's post-loop stage: merge reconstructed tables into the
metadata dict in table insertion order, unflatten the whole map, and unwrap
a sole `data` array (inverse of the synthetic root key). -/
def decodeFinish (st : DecSt) : Except PyErr Value :=
  match mergeTables st.tables st.metadata with
  | .error e => .error e
  | .ok md =>
    match pyUnflatten md with
    | .error e => .error e
    | .ok result =>
      match result with
      | [(k, .arr xs)] => if k = sl "data" then .ok (.arr xs) else .ok (.obj result)
      | _ => .ok (.obj result)

/-- `ZonDecoder.decode` / the module-level `decode`. -/
def decode (s : Str) : Except PyErr Value :=
  if s.isEmpty then .ok (.obj [])
  else
    match decodeLoop (splitOnCh '\n' (pyStrip s)) ⟨[], [], none⟩ with
    | .error e => .error e
    | .ok st => decodeFinish st

/-! ## Auxiliary definitions for the round-trip lemmas -/

/-- Doubling of quotes, as `csvQuote` does. -/
def csvDoubled (s : Str) : Str :=
  s.flatMap (fun c => if c = '"' then ['"', '"'] else [c])

/-- Characters that `json.dumps` keeps unescaped and that are neutral for
every tokenizer in the pipeline: printable ASCII other than the quote and
the backslash. -/
def plainChar (c : Char) : Bool :=
  32 ≤ c.toNat && c.toNat ≤ 126 && !(c = '"') && !(c = '\\')

/-- Values the amended C1 round-trip covers as metadata entries: Null,
Bool and integer Numbers. -/
def scalarSafe : Value → Bool
  | .null => true
  | .bool _ => true
  | .int _ => true
  | _ => false

/-- Keys the amended C1 round-trip covers: nonempty `\w` words, as the
table-header regex and the dotted-key machinery leave them untouched. -/
def metaKeySafe (k : Str) : Bool := !k.isEmpty && k.all isWordChar

/-! ## Order lemmas for the stable sorts -/

theorem strLe_total (a : Str) : ∀ b, strLe a b = true ∨ strLe b a = true := by
  induction a with
  | nil => intro b; left; cases b <;> rfl
  | cons x xs ih =>
    intro b
    cases b with
    | nil => right; rfl
    | cons y ys =>
      simp only [strLe]
      by_cases h1 : x.toNat < y.toNat
      · left
        simp [h1]
      · by_cases h2 : y.toNat < x.toNat
        · right
          simp [h1, h2]
        · simp [h1, h2]
          exact ih ys

theorem strLe_trans (a : Str) :
    ∀ b c, strLe a b = true → strLe b c = true → strLe a c = true := by
  induction a with
  | nil => intro b c _ _; rfl
  | cons x xs ih =>
    intro b c hab hbc
    cases b with
    | nil => simp [strLe] at hab
    | cons y ys =>
      cases c with
      | nil => simp [strLe] at hbc
      | cons z zs =>
        simp only [strLe] at hab hbc ⊢
        by_cases hxy : x.toNat < y.toNat
        · by_cases hyz : y.toNat < z.toNat
          · have hxz : x.toNat < z.toNat := by omega
            simp [hxz]
          · by_cases hzy : z.toNat < y.toNat
            · simp [hyz, hzy] at hbc
            · have hxz : x.toNat < z.toNat := by omega
              simp [hxz]
        · by_cases hyx : y.toNat < x.toNat
          · simp [hxy, hyx] at hab
          · simp only [hxy, hyx, if_false] at hab
            by_cases hyz : y.toNat < z.toNat
            · have hxz : x.toNat < z.toNat := by omega
              simp [hxz]
            · by_cases hzy : z.toNat < y.toNat
              · simp [hyz, hzy] at hbc
              · simp only [hyz, hzy, if_false] at hbc
                have hxz : ¬ x.toNat < z.toNat := by omega
                have hzx : ¬ z.toNat < x.toNat := by omega
                simp only [hxz, hzx, if_false]
                exact ih ys zs hab hbc

/-- Keys in nondecreasing `strLe` order. -/
def KeysSorted {α : Type} (l : List (Str × α)) : Prop :=
  List.Pairwise (fun a b => strLe a.1 b.1 = true) l

theorem mem_insAsc {α : Type} (x z : Str × α) :
    ∀ l : List (Str × α), z ∈ insAsc x l → z = x ∨ z ∈ l := by
  intro l
  induction l with
  | nil =>
    intro h
    simp only [insAsc, List.mem_singleton] at h
    exact .inl h
  | cons y ys ih =>
    intro h
    simp only [insAsc] at h
    split at h
    · rcases List.mem_cons.mp h with h | h
      · exact .inl h
      · exact .inr h
    · rcases List.mem_cons.mp h with h | h
      · exact .inr (by simp [h])
      · rcases ih h with h | h
        · exact .inl h
        · exact .inr (by simp [h])

theorem insAsc_sorted {α : Type} (x : Str × α) :
    ∀ l : List (Str × α), KeysSorted l → KeysSorted (insAsc x l) := by
  intro l
  induction l with
  | nil =>
    intro _
    simp [insAsc, KeysSorted]
  | cons y ys ih =>
    intro h
    rcases List.pairwise_cons.mp h with ⟨hy, hys⟩
    simp only [insAsc]
    split
    · rename_i hxy
      refine List.pairwise_cons.mpr ⟨?_, h⟩
      intro z hz
      rcases List.mem_cons.mp hz with hz | hz
      · subst hz; exact hxy
      · exact strLe_trans _ _ _ hxy (hy z hz)
    · rename_i hxy
      refine List.pairwise_cons.mpr ⟨?_, ih hys⟩
      intro z hz
      rcases mem_insAsc x z ys hz with hz | hz
      · subst hz
        rcases strLe_total z.1 y.1 with ht | ht
        · exact absurd ht hxy
        · exact ht
      · exact hy z hz

theorem sortByKey_sorted {α : Type} (l : List (Str × α)) :
    KeysSorted (sortByKey l) := by
  induction l with
  | nil => exact List.Pairwise.nil
  | cons x xs ih => exact insAsc_sorted x (sortByKey xs) ih

theorem insAsc_perm {α : Type} (x : Str × α) :
    ∀ l : List (Str × α), List.Perm (insAsc x l) (x :: l) := by
  intro l
  induction l with
  | nil => rfl
  | cons y ys ih =>
    simp only [insAsc]
    split
    · exact List.Perm.refl _
    · exact (ih.cons y).trans (List.Perm.swap x y ys)

theorem sortByKey_perm {α : Type} (l : List (Str × α)) :
    List.Perm (sortByKey l) l := by
  induction l with
  | nil => rfl
  | cons x xs ih => exact (insAsc_perm x (sortByKey xs)).trans (ih.cons x)

theorem mem_insStr (x z : Str) :
    ∀ l : List Str, z ∈ insStr x l → z = x ∨ z ∈ l := by
  intro l
  induction l with
  | nil =>
    intro h
    simp only [insStr, List.mem_singleton] at h
    exact .inl h
  | cons y ys ih =>
    intro h
    simp only [insStr] at h
    split at h
    · rcases List.mem_cons.mp h with h | h
      · exact .inl h
      · exact .inr h
    · rcases List.mem_cons.mp h with h | h
      · exact .inr (by simp [h])
      · rcases ih h with h | h
        · exact .inl h
        · exact .inr (by simp [h])

theorem insStr_sorted (x : Str) :
    ∀ l : List Str, List.Pairwise (fun a b => strLe a b = true) l →
    List.Pairwise (fun a b => strLe a b = true) (insStr x l) := by
  intro l
  induction l with
  | nil =>
    intro _
    simp [insStr]
  | cons y ys ih =>
    intro h
    rcases List.pairwise_cons.mp h with ⟨hy, hys⟩
    simp only [insStr]
    split
    · rename_i hxy
      refine List.pairwise_cons.mpr ⟨?_, h⟩
      intro z hz
      rcases List.mem_cons.mp hz with hz | hz
      · subst hz; exact hxy
      · exact strLe_trans _ _ _ hxy (hy z hz)
    · rename_i hxy
      refine List.pairwise_cons.mpr ⟨?_, ih hys⟩
      intro z hz
      rcases mem_insStr x z ys hz with hz | hz
      · subst hz
        rcases strLe_total z y with ht | ht
        · exact absurd ht hxy
        · exact ht
      · exact hy z hz

theorem sortStrs_sorted (l : List Str) :
    List.Pairwise (fun a b => strLe a b = true) (sortStrs l) := by
  induction l with
  | nil => exact List.Pairwise.nil
  | cons x xs ih => exact insStr_sorted x (sortStrs xs) ih

/-! ## String, CSV and JSON tokenizer lemmas -/

theorem dropWhile_eq_self_head {p : Char → Bool} (s : Str)
    (h : p (s.headD ' ') = false ∨ s = []) : s.dropWhile p = s := by
  cases s with
  | nil => rfl
  | cons c t =>
    rcases h with h | h
    · simp only [List.headD] at h
      rw [List.dropWhile_cons]
      simp [h]
    · exact absurd h (by simp)

theorem headD_reverse (s : Str) (d : Char) : s.reverse.headD d = s.getLastD d := by
  rw [List.headD_eq_head?_getD, List.head?_reverse, List.getLastD_eq_getLast?]

theorem pyStrip_eq_self (s : Str)
    (h1 : isPySpace (s.headD ' ') = false ∨ s = [])
    (h2 : isPySpace (s.getLastD ' ') = false ∨ s = []) :
    pyStrip s = s := by
  unfold pyStrip
  rw [dropWhile_eq_self_head s h1]
  rw [dropWhile_eq_self_head s.reverse
    (by
      rcases h2 with h2 | h2
      · left; rw [headD_reverse]; exact h2
      · right; simp [h2])]
  simp

theorem pyRstrip_eq_self (s : Str)
    (h2 : isPySpace (s.getLastD ' ') = false ∨ s = []) :
    pyRstrip s = s := by
  unfold pyRstrip
  rw [dropWhile_eq_self_head s.reverse
    (by
      rcases h2 with h2 | h2
      · left; rw [headD_reverse]; exact h2
      · right; simp [h2])]
  simp

theorem splitOnCh_not_mem (ch : Char) (s : Str) (h : s.contains ch = false) :
    splitOnCh ch s = [s] := by
  induction s with
  | nil => rfl
  | cons c t ih =>
    simp only [List.contains_cons, Bool.or_eq_false_iff] at h
    rcases h with ⟨hc, ht⟩
    simp only [splitOnCh]
    rw [ih ht]
    have : ¬ c = ch := by
      intro he
      subst he
      simp at hc
    simp [this]

theorem splitOnCh_append (ch : Char) (a b : Str) (ha : a.contains ch = false)
    (hb : b.contains ch = false) :
    splitOnCh ch (a ++ ch :: b) = [a, b] := by
  induction a with
  | nil =>
    show splitOnCh ch (ch :: b) = [[], b]
    simp only [splitOnCh]
    rw [splitOnCh_not_mem ch b hb]
    simp
  | cons c t ih =>
    simp only [List.contains_cons, Bool.or_eq_false_iff] at ha
    rcases ha with ⟨hc, ht⟩
    show splitOnCh ch (c :: (t ++ ch :: b)) = [c :: t, b]
    simp only [splitOnCh]
    rw [ih ht]
    have hne : ¬ c = ch := by
      intro he
      subst he
      simp at hc
    simp [hne]

theorem csvQuote_eq (s : Str) : csvQuote s = '"' :: csvDoubled s ++ ['"'] := rfl

theorem csvAux_nil (st : Nat) (cur : Str) (acc : List Str) :
    csvAux st [] cur acc = (cur.reverse :: acc).reverse := by
  cases st <;> rfl

theorem csvAux0_quote (l cur : Str) (acc : List Str) :
    csvAux 0 ('"' :: l) cur acc = csvAux 2 l cur acc := by
  simp [csvAux]

theorem csvAux2_quote (l cur : Str) (acc : List Str) :
    csvAux 2 ('"' :: l) cur acc = csvAux 3 l cur acc := by
  simp [csvAux]

theorem csvAux2_other (c : Char) (hc : ¬ c = '"') (l cur : Str) (acc : List Str) :
    csvAux 2 (c :: l) cur acc = csvAux 2 l (c :: cur) acc := by
  simp [csvAux, hc]

theorem csvAux3_quote (l cur : Str) (acc : List Str) :
    csvAux 3 ('"' :: l) cur acc = csvAux 2 l ('"' :: cur) acc := by
  simp [csvAux]

theorem csvAux_quoted (x : Str) : ∀ (rest cur : Str) (acc : List Str),
    csvAux 2 (csvDoubled x ++ rest) cur acc = csvAux 2 rest (x.reverse ++ cur) acc := by
  induction x with
  | nil => intro rest cur acc; simp [csvDoubled]
  | cons c t ih =>
    intro rest cur acc
    by_cases hc : c = '"'
    · subst hc
      have h1 : csvDoubled ('"' :: t) ++ rest = '"' :: '"' :: (csvDoubled t ++ rest) := by
        simp [csvDoubled]
      rw [h1, csvAux2_quote, csvAux3_quote, ih]
      simp
    · have h1 : csvDoubled (c :: t) ++ rest = c :: (csvDoubled t ++ rest) := by
        simp [csvDoubled, hc]
      rw [h1, csvAux2_other c hc, ih]
      simp

theorem parseCsvLine_csvQuote (x : Str) : parseCsvLine (csvQuote x) = [x] := by
  rw [csvQuote_eq]
  show parseCsvLine ('"' :: (csvDoubled x ++ ['"'])) = [x]
  rw [parseCsvLine]
  rw [if_neg (by simp)]
  rw [csvAux0_quote, csvAux_quoted, csvAux2_quote, csvAux_nil]
  simp

theorem jsonEscapeChar_plain (c : Char) (hc : plainChar c = true) :
    jsonEscapeChar c = [c] := by
  simp only [plainChar, Bool.and_eq_true, Bool.not_eq_true', decide_eq_true_eq,
    decide_eq_false_iff_not] at hc
  rcases hc with ⟨⟨⟨h32, h126⟩, hq⟩, hb⟩
  unfold jsonEscapeChar
  rw [if_neg hq, if_neg hb]
  have hn : ¬ c = '\n' := by
    intro he; subst he; simp at h32
  have hr : ¬ c = '\x0d' := by
    intro he; subst he; simp at h32
  have htb : ¬ c = '\t' := by
    intro he; subst he; simp at h32
  have hbs : ¬ c = '\x08' := by
    intro he; subst he; simp at h32
  have hff : ¬ c = '\x0c' := by
    intro he; subst he; simp at h32
  rw [if_neg hn, if_neg hr, if_neg htb, if_neg hbs, if_neg hff]
  have hcond : (c.toNat < 32 || c.toNat ≥ 127) = false := by
    simp only [Bool.or_eq_false_iff, decide_eq_false_iff_not]
    omega
  rw [hcond]
  simp

theorem flatMap_jsonEscape_plain (s : Str) (h : s.all plainChar = true) :
    s.flatMap jsonEscapeChar = s := by
  induction s with
  | nil => rfl
  | cons c t ih =>
    simp only [List.all_cons, Bool.and_eq_true] at h
    rw [List.flatMap_cons, jsonEscapeChar_plain c h.1, ih h.2]
    rfl

theorem jsonDumpsString_plain (s : Str) (h : s.all plainChar = true) :
    jsonDumpsString s = '"' :: s ++ ['"'] := by
  unfold jsonDumpsString
  rw [flatMap_jsonEscape_plain s h]

set_option maxHeartbeats 1600000 in
theorem jsonStrBody_cons_plain (c : Char) (rest : Str)
    (hq : ¬ c = '"') (hb : ¬ c = '\\') (hge : 32 ≤ c.toNat) :
    jsonStrBody (c :: rest) =
      (jsonStrBody rest).map (fun p => (c :: p.1, p.2)) := by
  rw [jsonStrBody.eq_def]
  split
  · rename_i heq
    exact absurd heq (by simp)
  · rename_i heq
    injection heq with h1 h2
    exact absurd h1 hq
  · rename_i heq
    injection heq with h1 h2
    exact absurd h1 hb
  · rename_i heq
    injection heq with h1 h2
    exact absurd h1 hb
  · rename_i heq
    injection heq with h1 h2
    exact absurd h1 hb
  · rename_i heq
    injection heq with h1 h2
    subst h1
    subst h2
    rw [if_neg (by omega)]
    rcases jsonStrBody rest with _ | ⟨content, r⟩ <;> rfl

theorem jsonStrBody_plain (s : Str) (h : s.all plainChar = true) :
    ∀ rest, jsonStrBody (s ++ '"' :: rest) = some (s, rest) := by
  induction s with
  | nil => intro rest; rfl
  | cons c t ih =>
    intro rest
    simp only [List.all_cons, Bool.and_eq_true] at h
    rcases h with ⟨hc, ht⟩
    simp only [plainChar, Bool.and_eq_true, Bool.not_eq_true', decide_eq_true_eq,
      decide_eq_false_iff_not] at hc
    rcases hc with ⟨⟨⟨h32, h126⟩, hq⟩, hb⟩
    show jsonStrBody (c :: (t ++ '"' :: rest)) = _
    rw [jsonStrBody_cons_plain c _ hq hb (by omega)]
    rw [ih ht rest]
    rfl

theorem jsonLoadsStringLit_quote (rest : Str) :
    jsonLoadsStringLit ('"' :: rest) =
      match jsonStrBody rest with
      | some (content, rest') =>
        if rest'.all (fun c => c = ' ' || c = '\t' || c = '\n' || c = '\x0d')
        then some content else none
      | none => none := rfl

theorem jsonLoadsStringLit_plain (s : Str) (h : s.all plainChar = true) :
    jsonLoadsStringLit ('"' :: s ++ ['"']) = some s := by
  show jsonLoadsStringLit ('"' :: (s ++ '"' :: [])) = some s
  rw [jsonLoadsStringLit_quote, jsonStrBody_plain s h []]
  rfl

/-! ## Claim counterexamples on concrete inputs -/

/-- C1: counterexample to the universal round-trip claim.  A bare integer
root is a Value tree built from the supported categories, but
`encode(5) = "5"` and `decode("5") = {}`: the round trip loses the value
entirely (the fallback line is ignored by the decoder). -/
theorem c1_scalar_root_counterexample :
    decode (encode (Value.int 5)) = .ok (.obj []) ∧
    structValueEq (Value.int 5) (.obj []) = false :=
  ⟨rfl, rfl⟩

/-- C2: counterexample to "for every other input text decode returns a Value
without raising".  `"a: 1\na.0: 2"` contains no line starting with the table
marker, yet decode raises an uncaught host-level `TypeError`:
`_unflatten` runs `len(1)` while array-indexing through the existing
non-list value at key `a`. -/
theorem c2_hostError_counterexample :
    decode (sl "a: 1\na.0: 2") = .error .hostError ∧
    (splitOnCh '\n' (sl "a: 1\na.0: 2")).all
      (fun l => !((pyRstrip l).headD ' ' = TABLE_MARKER)) = true :=
  ⟨rfl, rfl⟩

/-- The C3 failing input: a table whose first column is sequential with
detected step 2 (`id` = 1, 3, 5). -/
def c3input : Value := .obj [(sl "items", .arr [
  .obj [(sl "id", .int 1)], .obj [(sl "id", .int 3)], .obj [(sl "id", .int 5)]])]

/-- C3: evaluation of the code at the failing input.  The encoder emits the
auto-increment token for rows 2 and 3 (step 2 detected), but the decoder
resolves the token as previous + 1, so `id` = 1, 3, 5 decodes to 1, 2, 3:
the token does not denote "previous plus the detected step" as the spec
requires, and the documented round-trip property breaks. -/
theorem c3_step_two_decodes_wrong :
    encode c3input = sl "@items(3): id\n1\n_\n_" ∧
    decode (encode c3input) = .ok (.obj [(sl "items", .arr [
      .obj [(sl "id", .int 1)], .obj [(sl "id", .int 2)],
      .obj [(sl "id", .int 3)]])]) ∧
    structValueEq c3input (.obj [(sl "items", .arr [
      .obj [(sl "id", .int 1)], .obj [(sl "id", .int 2)],
      .obj [(sl "id", .int 3)]])]) = false :=
  ⟨rfl, rfl, rfl⟩

/-- C4: counterexample for metadata values.  The string `"123"` as a
metadata value is encoded as `k: """123"""`; the decoder's metadata path
does not CSV-unquote, `json.loads('"""123"""')` fails, and the value decodes
to the string `"""123"""`, not to the original `"123"`. -/
theorem c4_metadata_counterexample :
    decode (encode (.obj [(sl "k", .str (sl "123"))])) =
      .ok (.obj [(sl "k", .str (sl "\"\"\"123\"\"\""))]) ∧
    structValueEq (.str (sl "123")) (.str (sl "\"\"\"123\"\"\"")) = false :=
  ⟨rfl, rfl⟩

/-- An entry value that is a non-empty Array of Objects, read off the spec's
words for C7 ("non-empty Arrays of Objects"). -/
def specIsArrayOfObjects : Value → Bool
  | .arr (x :: xs) => (x :: xs).all (fun v => match v with
    | .obj _ => true
    | _ => false)
  | _ => false

/-- C7: counterexample to "the stream candidates are exactly the direct
entries whose value is a non-empty Array of Objects".  The code only checks
the first element, so `{"k": [{"x": 1}, 5]}` — whose only entry is not an
Array of Objects — is still promoted to the stream instead of the whole
object becoming metadata with no stream. -/
theorem c7_mixed_array_promoted :
    extractPrimaryStream (.obj [(sl "k", .arr [.obj [(sl "x", .int 1)], .int 5])]) =
      (some [.obj [(sl "x", .int 1)], .int 5], [], some (sl "k")) ∧
    [(sl "k", Value.arr [.obj [(sl "x", .int 1)], .int 5])].all
      (fun kv => !specIsArrayOfObjects kv.2) = true :=
  ⟨rfl, rfl⟩

/-- The C8 heterogeneous-rows input from the claim. -/
def c8input : Value := .arr [
  .obj [(sl "id", .int 1), (sl "name", .str (sl "A")), (sl "extra", .str (sl "v"))],
  .obj [(sl "id", .int 2), (sl "name", .str (sl "B"))]]

/-- C8: counterexample to "the encoder emits an empty cell for each column
absent from a row".  The second row's `extra` cell is the token `null`, not
an empty cell: `row.get(col)` returns `None` and `_format_value(None)`
renders `null`. -/
theorem c8_null_token_counterexample :
    encode c8input = sl "@data(2): extra,id,name\nv,1,A\nnull,2,B" ∧
    (parseCsvLine (sl "null,2,B")).headD [] = sl "null" ∧
    ¬ (sl "null" = ([] : Str)) :=
  ⟨rfl, rfl, by decide⟩

/-- C10: counterexample to the parenthetical "including the single-line
compact-JSON fallback that encode emits for bare scalar roots".  For the
string root `"a: b"` the fallback line `"a: b"` contains the metadata
separator, so the decoder parses it as a metadata line and returns a
non-empty object, not the empty one. -/
theorem c10_string_fallback_counterexample :
    encode (.str (sl "a: b")) = sl "\"a: b\"" ∧
    decode (encode (.str (sl "a: b"))) =
      .ok (.obj [(sl "\"a", .str (sl "b\""))]) ∧
    structValueEq (.obj [(sl "\"a", .str (sl "b\""))]) (.obj []) = false :=
  ⟨rfl, rfl, rfl⟩

/-- C5: `encode` is deterministic — in this purely functional embedding two
calls on the same value are definitionally the same text — and the stable
orders the claim names are proved: metadata lines are emitted in
nondecreasing key order (`sorted(flattened.items())`), and a table's column
list is in nondecreasing order (`sorted(set union of keys)`).  Stability of
stream selection among tied candidates is the subject of C7's
characterization. -/
theorem c5_deterministic_sorted :
    (∀ v : Value, encode v = encode v) ∧
    (∀ metadata : List (Str × Value),
      KeysSorted (sortByKey (pyFlatten (.obj metadata) [] 0))) ∧
    (∀ flatStream : List (List (Str × Value)),
      List.Pairwise (fun a b => strLe a b = true) (tableCols flatStream)) :=
  ⟨fun _ => rfl,
   fun metadata => sortByKey_sorted (pyFlatten (.obj metadata) [] 0),
   fun flatStream => sortStrs_sorted _⟩

/-- C6: `encode` is total on the value model (it never raises), and whenever
root-stream extraction yields no (non-empty) stream and empty metadata, the
result is the compact JSON rendering of the input on a single line. -/
theorem c6_fallback_json (v : Value)
    (h1 : (match (extractPrimaryStream v).1 with
           | some (_ :: _) => true
           | _ => false) = false)
    (h2 : (extractPrimaryStream v).2.1 = []) :
    encode v = pyJsonDumps v := by
  unfold encode
  rcases hE : extractPrimaryStream v with ⟨sd, md, sk⟩
  rw [hE] at h1 h2
  simp only at h1 h2
  subst h2
  simp [h1]

/-- C6 witness: the fallback cases named by the claim — a bare scalar root,
the empty Array and the empty Object — all hit the compact-JSON branch. -/
theorem c6_fallback_json_witness :
    encode (Value.int 5) = pyJsonDumps (Value.int 5) ∧
    encode (Value.arr []) = pyJsonDumps (Value.arr []) ∧
    encode (Value.obj []) = pyJsonDumps (Value.obj []) :=
  ⟨c6_fallback_json (Value.int 5) rfl rfl,
   c6_fallback_json (Value.arr []) rfl rfl,
   c6_fallback_json (Value.obj []) rfl rfl⟩


theorem insDesc_length (x : (Str × Value) × Nat) :
    ∀ l, (insDesc x l).length = l.length + 1 := by
  intro l
  induction l with
  | nil => rfl
  | cons y ys ih =>
    simp only [insDesc]
    split
    · simp
    · simp [ih]

theorem sortCandsDesc_length (l : List ((Str × Value) × Nat)) :
    (sortCandsDesc l).length = l.length := by
  induction l with
  | nil => rfl
  | cons x xs ih => simp [sortCandsDesc, insDesc_length, ih]

theorem sortCandsDesc_head :
    ∀ (l : List ((Str × Value) × Nat)) (x : (Str × Value) × Nat) rest,
    sortCandsDesc l = x :: rest →
    ∃ pre post, l = pre ++ x :: post ∧ (∀ c ∈ l, c.2 ≤ x.2) ∧
      (∀ c ∈ pre, c.2 < x.2) := by
  intro l
  induction l with
  | nil => intro x rest h; simp [sortCandsDesc] at h
  | cons y ys ih =>
    intro x rest h
    simp only [sortCandsDesc] at h
    cases hys : sortCandsDesc ys with
    | nil =>
      have hlen := sortCandsDesc_length ys
      rw [hys] at hlen
      have hempty : ys = [] := List.length_eq_zero.mp hlen.symm
      subst hempty
      simp only [sortCandsDesc, insDesc] at h ⊢
      rcases List.cons.injEq .. ▸ h with ⟨h1, _⟩
      subst h1
      exact ⟨[], [], rfl, by simp, by simp⟩
    | cons z zs =>
      rw [hys] at h
      rcases ih z zs hys with ⟨pre', post', hsplit, hall, hpre⟩
      simp only [insDesc] at h
      split at h
      · rename_i hge
        rcases List.cons.injEq .. ▸ h with ⟨h1, _⟩
        subst h1
        refine ⟨[], ys, rfl, ?_, by simp⟩
        intro c hc
        rcases List.mem_cons.mp hc with hc | hc
        · subst hc; exact Nat.le_refl _
        · exact Nat.le_trans (hall c hc) (by omega)
      · rename_i hlt
        rcases List.cons.injEq .. ▸ h with ⟨h1, _⟩
        subst h1
        refine ⟨y :: pre', post', by simp [hsplit], ?_, ?_⟩
        · intro c hc
          rcases List.mem_cons.mp hc with hc | hc
          · subst hc; omega
          · exact hall c hc
        · intro c hc
          rcases List.mem_cons.mp hc with hc | hc
          · subst hc; omega
          · exact hpre c hc


theorem mem_candidatesOf (kvs : List (Str × Value))
    (c : (Str × Value) × Nat) (h : c ∈ candidatesOf kvs) :
    c.2 = candScore c.1.2 ∧ isCandidate c.1.2 = true := by
  unfold candidatesOf at h
  rcases List.mem_map.mp h with ⟨kv, hmem, heq⟩
  rcases List.mem_filter.mp hmem with ⟨_, hcand⟩
  subst heq
  exact ⟨rfl, hcand⟩

/-- C7: amended characterization of root promotion for Object roots.  The
candidates are exactly the direct entries whose value is a non-empty Array
whose FIRST element is an Object (the code checks only `v[0]`, not every
element), scored `rows × keys_of_first_row`; with no candidate the whole
object is metadata with no stream; otherwise the promoted entry is a
candidate of maximal score and every candidate seen earlier scores strictly
less (first-seen tie-break), all other entries become metadata. -/
theorem c7_extract_first_seen_max (kvs : List (Str × Value)) :
    (candidatesOf kvs = [] → extractPrimaryStream (.obj kvs) = (none, kvs, none)) ∧
    (candidatesOf kvs ≠ [] →
      ∃ k v pre post,
        candidatesOf kvs = pre ++ ((k, v), candScore v) :: post ∧
        isCandidate v = true ∧
        (∀ c ∈ candidatesOf kvs, c.2 ≤ candScore v) ∧
        (∀ c ∈ pre, c.2 < candScore v) ∧
        extractPrimaryStream (.obj kvs) =
          (some (match v with | .arr xs => xs | _ => []),
           dictOfItems (kvs.filter (fun kw => !(kw.1 = k : Bool))),
           some k)) := by
  constructor
  · intro h
    simp only [extractPrimaryStream]
    rw [h]
    rfl
  · intro h
    cases hs : sortCandsDesc (candidatesOf kvs) with
    | nil =>
      have hlen := sortCandsDesc_length (candidatesOf kvs)
      rw [hs] at hlen
      exact absurd (List.length_eq_zero.mp hlen.symm) h
    | cons x rest =>
      rcases sortCandsDesc_head (candidatesOf kvs) x rest hs with
        ⟨pre, post, hsplit, hall, hpre⟩
      have hx : x ∈ candidatesOf kvs := by
        rw [hsplit]
        simp
      rcases mem_candidatesOf kvs x hx with ⟨hsc, hcand⟩
      refine ⟨x.1.1, x.1.2, pre, post, ?_, hcand, ?_, ?_, ?_⟩
      · rw [← hsc]
        simpa using hsplit
      · rw [← hsc]; exact hall
      · rw [← hsc]; exact hpre
      · simp only [extractPrimaryStream]
        rw [hs]

/-- The C7 witness input: two candidates with scores 1 and 2; the
second is promoted. -/
def c7kvs : List (Str × Value) :=
  [(sl "a", .arr [.obj [(sl "x", .int 1)]]),
   (sl "b", .arr [.obj [(sl "x", .int 1)], .obj [(sl "y", .int 2)]])]

/-- C7 witness: the characterization applied to a concrete object with two
candidates. -/
theorem c7_extract_first_seen_max_witness :
    ∃ k v pre post,
      candidatesOf c7kvs = pre ++ ((k, v), candScore v) :: post ∧
      isCandidate v = true ∧
      (∀ c ∈ candidatesOf c7kvs, c.2 ≤ candScore v) ∧
      (∀ c ∈ pre, c.2 < candScore v) ∧
      extractPrimaryStream (.obj c7kvs) =
        (some (match v with | .arr xs => xs | _ => []),
         dictOfItems (c7kvs.filter (fun kw => !(kw.1 = k : Bool))),
         some k) :=
  (c7_extract_first_seen_max c7kvs).2 (by
    intro h
    have hc : candidatesOf c7kvs =
        ((sl "a", Value.arr [.obj [(sl "x", .int 1)]]), 1) ::
        [((sl "b", Value.arr [.obj [(sl "x", .int 1)], .obj [(sl "y", .int 2)]]), 2)] := rfl
    rw [hc] at h
    exact List.noConfusion h)


theorem decodeMetaLine_ok (st : DecSt) (line : Str) :
    ∃ st', decodeMetaLine st line = .ok st' := by
  unfold decodeMetaLine
  split
  · split
    · exact ⟨_, rfl⟩
    · exact ⟨_, rfl⟩
  · exact ⟨_, rfl⟩

theorem decodeLineStripped_error_iff (st : DecSt) (line : Str) (e : PyErr) :
    decodeLineStripped st line = .error e ↔
    (e = .decodeError ∧ line.headD ' ' = TABLE_MARKER ∧
     parseTableHeader line = none) := by
  unfold decodeLineStripped
  split
  · rename_i hemp
    rw [List.isEmpty_iff] at hemp
    subst hemp
    simp [TABLE_MARKER]
  · split
    · rename_i hhead
      split
      · rename_i hparse
        constructor
        · intro h
          have he : PyErr.decodeError = e := by injection h
          exact ⟨he.symm, hhead, hparse⟩
        · intro ⟨he, _, _⟩
          rw [he]
      · rename_i name t hparse
        constructor
        · intro h
          exact absurd h (by simp)
        · intro ⟨_, _, hnone⟩
          rw [hparse] at hnone
          exact Option.noConfusion hnone
    · rename_i hhead
      constructor
      · intro h
        split at h
        · split at h
          · split at h
            · simp at h
            · rcases decodeMetaLine_ok st line with ⟨st', hok⟩
              rw [hok] at h
              simp at h
          · rcases decodeMetaLine_ok st line with ⟨st', hok⟩
            rw [hok] at h
            simp at h
        · rcases decodeMetaLine_ok st line with ⟨st', hok⟩
          rw [hok] at h
          simp at h
      · intro ⟨_, hh, _⟩
        exact absurd hh hhead


theorem insertDotted_ne_decodeError :
    ∀ (parts : List Str) (d : List (Str × Value)) (v : Value),
    insertDotted d parts v ≠ .error .decodeError := by
  intro parts
  induction parts with
  | nil => intro d v h; simp [insertDotted] at h
  | cons p ps ih =>
    intro d v h
    cases ps with
    | nil =>
      unfold insertDotted at h
      exact Except.noConfusion h
    | cons q rs =>
      unfold insertDotted at h
      split at h
      · dsimp only at h
        (repeat' split at h) <;>
          first
          | exact Except.noConfusion h
          | exact PyErr.noConfusion (Except.error.inj h)
      · split at h
        · split at h
          · exact Except.noConfusion h
          · rename_i e heq
            exact ih _ v ((Except.error.inj h ▸ heq :
              insertDotted [] (q :: rs) v = .error .decodeError))
        · split at h
          · exact Except.noConfusion h
          · rename_i e heq
            exact ih _ v ((Except.error.inj h ▸ heq :
              insertDotted _ (q :: rs) v = .error .decodeError))
        · exact Except.noConfusion h



theorem decodeLoop_props (lines : List Str) : ∀ st : DecSt,
    (decodeLoop lines st = .error PyErr.decodeError ↔
       ∃ line ∈ lines, (pyRstrip line).headD ' ' = TABLE_MARKER ∧
         parseTableHeader (pyRstrip line) = none) ∧
    decodeLoop lines st ≠ .error PyErr.hostError := by
  induction lines with
  | nil =>
    intro st
    exact ⟨by simp [decodeLoop], by simp [decodeLoop]⟩
  | cons l ls ih =>
    intro st
    simp only [decodeLoop]
    cases hd : decodeLine st l with
    | error e =>
      have hb := (decodeLineStripped_error_iff st (pyRstrip l) e).mp hd
      rcases hb with ⟨he, hh, hp⟩
      subst he
      refine ⟨⟨fun _ => ⟨l, List.mem_cons_self l ls, hh, hp⟩, fun _ => rfl⟩, ?_⟩
      intro hcontra
      exact PyErr.noConfusion (Except.error.inj hcontra)
    | ok st' =>
      have hnotbad : ¬ ((pyRstrip l).headD ' ' = TABLE_MARKER ∧
          parseTableHeader (pyRstrip l) = none) := by
        intro ⟨hh, hp⟩
        have hcontra : decodeLine st l = .error .decodeError :=
          (decodeLineStripped_error_iff st (pyRstrip l) .decodeError).mpr ⟨rfl, hh, hp⟩
        rw [hd] at hcontra
        exact Except.noConfusion hcontra
      rcases ih st' with ⟨ihiff, ihhost⟩
      refine ⟨?_, ihhost⟩
      rw [ihiff]
      constructor
      · intro ⟨line, hmem, hcond⟩
        exact ⟨line, List.mem_cons_of_mem l hmem, hcond⟩
      · intro ⟨line, hmem, hcond⟩
        rcases List.mem_cons.mp hmem with hline | hmem'
        · subst hline
          exact absurd hcond hnotbad
        · exact ⟨line, hmem', hcond⟩

theorem unflattenStep_ne_decodeError (d : List (Str × Value)) (kv : Str × Value) :
    unflattenStep d kv ≠ .error .decodeError := by
  unfold unflattenStep
  split
  · exact fun h => Except.noConfusion h
  · exact insertDotted_ne_decodeError _ d kv.2

theorem unflattenFold_ne_decodeError (flat : List (Str × Value)) :
    ∀ d, unflattenFold flat d ≠ .error .decodeError := by
  induction flat with
  | nil => intro d h; exact Except.noConfusion h
  | cons kv rest ih =>
    intro d h
    simp only [unflattenFold] at h
    split at h
    · rename_i e heq
      exact unflattenStep_ne_decodeError d kv ((Except.error.inj h) ▸ heq)
    · exact ih _ h

theorem pyUnflatten_ne_decodeError (flat : List (Str × Value)) :
    pyUnflatten flat ≠ .error .decodeError :=
  unflattenFold_ne_decodeError flat []

theorem reconstructRows_ne_decodeError (rows : List (List (Str × Value))) :
    reconstructRows rows ≠ .error .decodeError := by
  induction rows with
  | nil => intro h; exact Except.noConfusion h
  | cons r rest ih =>
    intro h
    simp only [reconstructRows] at h
    split at h
    · rename_i e heq
      exact pyUnflatten_ne_decodeError r ((Except.error.inj h) ▸ heq)
    · split at h
      · rename_i e heq
        exact ih ((Except.error.inj h) ▸ heq)
      · exact Except.noConfusion h

theorem reconstructTable_ne_decodeError (t : TableState) :
    reconstructTable t ≠ .error .decodeError := by
  intro h
  unfold reconstructTable at h
  split at h
  · rename_i e heq
    exact reconstructRows_ne_decodeError t.rows ((Except.error.inj h) ▸ heq)
  · exact Except.noConfusion h

theorem mergeTables_ne_decodeError (tables : List (Str × TableState)) :
    ∀ md, mergeTables tables md ≠ .error .decodeError := by
  induction tables with
  | nil => intro md h; exact Except.noConfusion h
  | cons kv rest ih =>
    intro md h
    rcases kv with ⟨name, t⟩
    simp only [mergeTables] at h
    split at h
    · rename_i e heq
      exact reconstructTable_ne_decodeError t ((Except.error.inj h) ▸ heq)
    · exact ih _ h

theorem decodeFinish_ne_decodeError (st : DecSt) :
    decodeFinish st ≠ .error .decodeError := by
  intro h
  unfold decodeFinish at h
  split at h
  · rename_i e heq
    exact mergeTables_ne_decodeError st.tables st.metadata ((Except.error.inj h) ▸ heq)
  · split at h
    · rename_i e heq
      exact pyUnflatten_ne_decodeError _ ((Except.error.inj h) ▸ heq)
    · split at h
      · split at h <;> exact Except.noConfusion h
      · exact Except.noConfusion h



/-- C2: amended.  `decode(text)` raises a `ZonDecodeError` if and only if
some rstripped line of the text starts with the table marker `@` and fails
the fixed header grammar `@name(<digits>): col1,col2,...` — whatever the
table state, since the header check precedes row consumption.  (The claim's
second half, that every other input decodes without raising, is refuted by
`c2_hostError_counterexample`: the unflattening stage can raise host-level
exceptions on conflicting dotted keys.) -/
theorem c2_decodeError_iff_bad_header (s : Str) :
    decode s = .error .decodeError ↔
    ∃ line ∈ splitOnCh '\n' (pyStrip s),
      (pyRstrip line).headD ' ' = TABLE_MARKER ∧
      parseTableHeader (pyRstrip line) = none := by
  unfold decode
  split
  · rename_i hemp
    rw [List.isEmpty_iff] at hemp
    subst hemp
    constructor
    · intro h
      exact Except.noConfusion h
    · intro ⟨line, hmem, hcond⟩
      have hsplit : splitOnCh '\n' (pyStrip ([] : Str)) = [[]] := rfl
      rw [hsplit] at hmem
      simp only [List.mem_singleton] at hmem
      subst hmem
      rcases hcond with ⟨hh, _⟩
      simp [pyRstrip, TABLE_MARKER] at hh
  · rcases decodeLoop_props (splitOnCh '\n' (pyStrip s)) ⟨[], [], none⟩ with ⟨hiff, _⟩
    split
    · rename_i e heq
      constructor
      · intro h
        exact hiff.mp ((Except.error.inj h) ▸ heq)
      · intro hex
        have hthis := hiff.mpr hex
        rw [heq] at hthis
        rw [Except.error.inj hthis]
    · rename_i st heq
      constructor
      · intro h
        exact absurd h (decodeFinish_ne_decodeError st)
      · intro hex
        have hthis := hiff.mpr hex
        rw [heq] at hthis
        exact Except.noConfusion hthis

/-- C2 witness: a lone malformed header line is rejected with the decode
error. -/
theorem c2_decodeError_witness :
    decode (sl "@bad") = .error .decodeError :=
  (c2_decodeError_iff_bad_header (sl "@bad")).mpr
    ⟨sl "@bad", by decide, by decide, rfl⟩



theorem decodeLineStripped_ignored (st : DecSt) (line : Str)
    (hcur : st.cur = none)
    (hhead : ¬ line.headD ' ' = TABLE_MARKER)
    (hsep : strContains line META_SEPARATOR = false) :
    decodeLineStripped st line = .ok st := by
  unfold decodeLineStripped
  rw [hcur]
  split
  · rfl
  · show decodeMetaLine st line = .ok st
    unfold decodeMetaLine
    rw [hsep]
    simp

theorem decodeLoop_ignored (lines : List Str) :
    ∀ st : DecSt, st.cur = none →
    (∀ line ∈ lines, ¬ (pyRstrip line).headD ' ' = TABLE_MARKER ∧
        strContains (pyRstrip line) META_SEPARATOR = false) →
    decodeLoop lines st = .ok st := by
  induction lines with
  | nil => intro st _ _; rfl
  | cons l ls ih =>
    intro st hcur h
    rcases h l (List.mem_cons_self l ls) with ⟨hh, hs⟩
    have hok : decodeLine st l = .ok st :=
      decodeLineStripped_ignored st (pyRstrip l) hcur hh hs
    simp only [decodeLoop, hok]
    exact ih st hcur (fun line hmem => h line (List.mem_cons_of_mem l hmem))

/-- C10: amended.  `decode` returns the empty Object for the empty string,
and every non-blank line that does not start with the table marker and does
not contain the metadata separator `": "` is silently ignored (no table is
ever opened, so no line is consumed as a row); for any text consisting only
of such lines decode returns the empty Object.  The compact-JSON fallback
lines for the non-string roots named by the claim (`"5"`, `"[]"`, `"{}"`)
are such lines; a STRING scalar root whose text contains `": "` is not (see
`c10_string_fallback_counterexample`). -/
theorem c10_ignored_lines_empty :
    (decode (sl "") = .ok (.obj []) ∧
     decode (sl "5") = .ok (.obj []) ∧
     decode (sl "[]") = .ok (.obj []) ∧
     decode (sl "{}") = .ok (.obj [])) ∧
    (∀ s : Str, (∀ line ∈ splitOnCh '\n' (pyStrip s),
        ¬ (pyRstrip line).headD ' ' = TABLE_MARKER ∧
        strContains (pyRstrip line) META_SEPARATOR = false) →
      decode s = .ok (.obj [])) := by
  refine ⟨⟨rfl, rfl, rfl, rfl⟩, ?_⟩
  intro s h
  unfold decode
  split
  · rfl
  · rw [decodeLoop_ignored (splitOnCh '\n' (pyStrip s)) ⟨[], [], none⟩ rfl h]
    rfl

/-- C10 witness: a text of stray non-marker, non-metadata lines decodes to
the empty Object. -/
theorem c10_ignored_lines_witness :
    decode (sl "hello world\nstray;tokens [1") = .ok (.obj []) :=
  c10_ignored_lines_empty.2 (sl "hello world\nstray;tokens [1") (by decide)



theorem dictGet_dictSet_self {α : Type} (d : List (Str × α)) (k : Str) (v : α) :
    dictGet (dictSet d k v) k = some v := by
  induction d with
  | nil => simp [dictSet, dictGet]
  | cons kv rest ih =>
    by_cases h : kv.1 = k
    · simp [dictSet, h, dictGet]
    · simp only [dictSet, if_neg h]
      simp only [dictGet, List.find?] at ih ⊢
      rw [decide_eq_false h]
      exact ih

theorem dictGet_dictSet_ne {α : Type} (d : List (Str × α)) (k k' : Str) (v : α)
    (h : ¬ k' = k) : dictGet (dictSet d k v) k' = dictGet d k' := by
  have h2 : ¬ k = k' := fun he => h he.symm
  induction d with
  | nil => simp [dictSet, dictGet, h2]
  | cons kv rest ih =>
    by_cases he : kv.1 = k
    · have he2 : ¬ kv.1 = k' := fun hx => h2 (he ▸ hx)
      simp only [dictSet, if_pos he]
      simp only [dictGet, List.find?]
      rw [decide_eq_false h2, decide_eq_false he2]
    · simp only [dictSet, if_neg he]
      simp only [dictGet, List.find?] at ih ⊢
      cases hd : decide (kv.1 = k') with
      | true => rfl
      | false => exact ih

theorem rowCells_not_mem (cols : List Str) :
    ∀ (toks : List Str) (idx : Nat) (row prev : List (Str × Value)) (k : Str),
    ¬ k ∈ cols →
    dictGet (rowCells cols toks idx row prev).1 k = dictGet row k := by
  induction cols with
  | nil => intro toks idx row prev k _; cases toks <;> rfl
  | cons c cols ih =>
    intro toks idx row prev k hk
    cases toks with
    | nil => rfl
    | cons tok toks =>
      simp only [rowCells]
      have hkc : ¬ k = c := fun he => hk (he ▸ List.mem_cons_self c cols)
      rw [ih toks idx _ _ k (fun hm => hk (List.mem_cons_of_mem c hm))]
      exact dictGet_dictSet_ne _ _ _ _ hkc

theorem cellValue_empty (prev : Value) (idx : Nat) :
    cellValue [] prev idx = .null := rfl

theorem rowCells_empty_token (cols : List Str) :
    ∀ (toks : List Str) (idx : Nat) (row prev : List (Str × Value)) (i : Nat),
    cols.Nodup → i < cols.length → cols.length ≤ toks.length →
    toks.getD i [] = [] →
    dictGet (rowCells cols toks idx row prev).1 (cols.getD i []) = some .null := by
  induction cols with
  | nil => intro toks idx row prev i _ hi _ _; exact absurd hi (by simp)
  | cons c cols ih =>
    intro toks idx row prev i hnd hi hlen htok
    cases toks with
    | nil => simp at hlen
    | cons tok toks =>
      simp only [rowCells]
      rcases List.nodup_cons.mp hnd with ⟨hcnotin, hnd'⟩
      cases i with
      | zero =>
        simp only [List.getD, List.get?_cons_zero, Option.getD_some] at htok ⊢
        subst htok
        rw [rowCells_not_mem cols toks idx _ _ c hcnotin]
        rw [cellValue_empty]
        exact dictGet_dictSet_self _ _ _
      | succ i' =>
        have : (c :: cols).getD (i' + 1) [] = cols.getD i' [] := by simp [List.getD]
        rw [this]
        apply ih toks idx _ _ i' hnd' (by simpa using hi) (by simpa using hlen)
        simpa [List.getD] using htok



theorem getLastD_concat' {α : Type} (l : List α) (a d : α) :
    (l ++ [a]).getLastD d = a := by
  induction l with
  | nil => rfl
  | cons x xs ih =>
    cases xs with
    | nil => rfl
    | cons y ys => simpa using ih

/-- C8: amended.  The decoder resolves every empty or padded cell to Null —
never to the previous row's value: whenever the (CSV-tokenised and
right-padded) cell text at a column position is empty, the decoded row maps
that column to Null, whatever `prev_vals` holds.  The encoder, however,
renders a column absent from a row as the token `null` (an explicit
`_format_value(None)`), not as an empty cell, as the concrete conjuncts on
the claim's own example show. -/
theorem c8_missing_cells_null :
    (∀ (t : TableState) (line : Str) (i : Nat),
      t.cols.Nodup → i < t.cols.length →
      (parseCsvLine line ++
        List.replicate (t.cols.length - (parseCsvLine line).length) []).getD i [] = [] →
      dictGet ((parseTableRow line t).rows.getLastD []) (t.cols.getD i []) =
        some .null) ∧
    encode c8input = sl "@data(2): extra,id,name\nv,1,A\nnull,2,B" ∧
    decode (encode c8input) = .ok (.arr [
      .obj [(sl "extra", .str (sl "v")), (sl "id", .int 1), (sl "name", .str (sl "A"))],
      .obj [(sl "extra", .null), (sl "id", .int 2), (sl "name", .str (sl "B"))]]) := by
  refine ⟨?_, rfl, rfl⟩
  intro t line i hnd hi htok
  unfold parseTableRow
  dsimp only
  rw [getLastD_concat']
  apply rowCells_empty_token t.cols _ t.rowIndex [] t.prevVals i hnd hi _ htok
  simp only [List.length_append, List.length_replicate]
  omega

/-- The C8 witness table state: columns `extra,id,name`, as built by
the header `@data(2): extra,id,name`. -/
def c8table : TableState :=
  ⟨[sl "extra", sl "id", sl "name"], [],
   [(sl "extra", .null), (sl "id", .null), (sl "name", .null)], 0, 2⟩

/-- C8 witness: a short row `2` leaves columns `id` and `name` padded; the
padded `name` cell decodes to Null. -/
theorem c8_missing_cells_null_witness :
    dictGet ((parseTableRow (sl "2") c8table).rows.getLastD [])
      (c8table.cols.getD 2 []) = some .null :=
  c8_missing_cells_null.1 c8table (sl "2") 2 (by decide) (by decide) (by decide)



/-- C9: a non-empty Array root encodes as just a table under the synthetic
name `data` (empty metadata, the document is exactly the table block, whose
header line starts `@data(<count>): `); and any decode whose reconstructed
map is exactly the single key `data` holding an Array returns that Array
bare rather than wrapped in an Object — shown end-to-end on the claim's
example. -/
theorem c9_data_table_unwrap :
    (∀ rows : List Value, rows ≠ [] →
      encode (.arr rows) = joinWith ['\n'] (writeTable rows (sl "data")) ∧
      ∃ rest, writeTable rows (sl "data") =
        (sl "@data(" ++ natDigits rows.length ++ [')'] ++ META_SEPARATOR ++
         joinWith [','] (tableCols (rows.map (fun r => pyFlatten r [] 0)))) :: rest) ∧
    (∀ (st : DecSt) (md : List (Str × Value)) (xs : List Value),
      mergeTables st.tables st.metadata = .ok md →
      pyUnflatten md = .ok [(sl "data", .arr xs)] →
      decodeFinish st = .ok (.arr xs)) ∧
    decode (encode (.arr [.obj [(sl "a", .int 1)], .obj [(sl "a", .int 2)]])) =
      .ok (.arr [.obj [(sl "a", .int 1)], .obj [(sl "a", .int 2)]]) := by
  refine ⟨?_, ?_, rfl⟩
  · intro rows h
    cases rows with
    | nil => exact absurd rfl h
    | cons r rs => exact ⟨rfl, _, rfl⟩
  · intro st md xs h1 h2
    unfold decodeFinish
    rw [h1]
    dsimp only
    rw [h2]
    simp

/-- C9 witness: the general parts applied to the claim's example — the
two-row array root and a state holding only its reconstructed `data`
table. -/
theorem c9_data_table_unwrap_witness :
    encode (.arr [.obj [(sl "a", .int 1)], .obj [(sl "a", .int 2)]]) =
      joinWith ['\n']
        (writeTable [.obj [(sl "a", .int 1)], .obj [(sl "a", .int 2)]] (sl "data")) ∧
    decodeFinish ⟨[], [(sl "data",
        ⟨[sl "a"], [[(sl "a", .int 1)], [(sl "a", .int 2)]],
         [(sl "a", .int 2)], 2, 2⟩)], none⟩ =
      .ok (.arr [.obj [(sl "a", .int 1)], .obj [(sl "a", .int 2)]]) :=
  ⟨(c9_data_table_unwrap.1 [.obj [(sl "a", .int 1)], .obj [(sl "a", .int 2)]]
      (by simp)).1,
   c9_data_table_unwrap.2.1 _ _ _ rfl rfl⟩


/-! ## Round-trip lemmas for protected string cells (C4) -/

theorem formatValue_str (s : Str) :
    formatValue (.str s) =
      if needsTypeProtection s then csvQuote (jsonDumpsString s)
      else if needsQuotes s then csvQuote s
      else s := rfl

theorem encode_strCell (s : Str) :
    encode (.arr [.obj [(sl "c", .str s)]]) =
      sl "@data(1): c" ++ '\n' :: formatValue (.str s) := rfl

theorem contains_append' (a b : Str) (c : Char) :
    (a ++ b).contains c = (a.contains c || b.contains c) := by
  induction a with
  | nil => simp
  | cons x xs ih => simp [List.contains_cons, ih, Bool.or_assoc]

theorem plain_not_contains (s : Str) (h : s.all plainChar = true) (c : Char)
    (hc : plainChar c = false) : s.contains c = false := by
  induction s with
  | nil => rfl
  | cons x xs ih =>
    simp only [List.all_cons, Bool.and_eq_true] at h
    rw [List.contains_cons, ih h.2, Bool.or_false]
    simp only [beq_eq_false_iff_ne, ne_eq]
    intro he
    subst he
    rw [h.1] at hc
    exact Bool.true_eq_false ▸ hc

theorem pyIntParse_quote (t : Str) (h1 : pyStrip ('"' :: t) = '"' :: t) :
    pyIntParse ('"' :: t) = none := by
  unfold pyIntParse
  rw [h1]
  rfl

theorem pyFloatParses_quote (t : Str) (h1 : pyStrip ('"' :: t) = '"' :: t) :
    pyFloatParses ('"' :: t) = false := by
  unfold pyFloatParses
  rw [h1]
  show pyFloatBodyOk ('"' :: t) = false
  unfold pyFloatBodyOk
  simp [matchWordCI, parseDigitpart, isDig, sl]

theorem getLastD_append_right (a b : Str) (hb : ¬ b = []) (d : Char) :
    (a ++ b).getLastD d = b.getLastD d := by
  rw [List.getLastD_eq_getLast?, List.getLastD_eq_getLast?,
    List.getLast?_append_of_ne_nil]
  exact hb

theorem isEmpty_false_of_ne_nil (b : Str) (h : ¬ b = []) : b.isEmpty = false := by
  rcases b with _ | ⟨x, xs⟩
  · exact absurd rfl h
  · rfl

theorem quoted_getLastD (s : Str) (d : Char) :
    (('"' :: s ++ ['"'] : Str)).getLastD d = '"' :=
  getLastD_concat' _ _ _

theorem quoted_pyStrip (s : Str) :
    pyStrip ('"' :: s ++ ['"']) = '"' :: s ++ ['"'] := by
  refine pyStrip_eq_self _ (Or.inl (by show isPySpace '"' = false; decide)) (Or.inl ?h)
  rw [quoted_getLastD]
  decide

theorem quoted_contains (s : Str) (c : Char) (hc : ¬ c = '"') :
    (('"' :: s ++ ['"'] : Str)).contains c = s.contains c := by
  rw [contains_append']
  simp only [List.contains_cons, List.contains_nil, Bool.or_false]
  have h1 : (c == '"') = false := beq_eq_false_iff_ne.mpr hc
  simp [h1]

theorem parseValue_quoted (s : Str) (h : s.all plainChar = true) :
    parseValue ('"' :: s ++ ['"']) = .str s := by
  have hps : pyStrip ('"' :: (s ++ ['"'])) = '"' :: (s ++ ['"']) := quoted_pyStrip s
  have hfl : pyFloatParses ('"' :: (s ++ ['"'])) = false := pyFloatParses_quote _ hps
  have hint : pyIntParse ('"' :: (s ++ ['"'])) = none := pyIntParse_quote _ hps
  have hlast : (('"' :: (s ++ ['"']) : Str)).getLastD ' ' = '"' := quoted_getLastD s ' '
  have hjson : jsonLoadsStringLit ('"' :: (s ++ ['"'])) = some s :=
    jsonLoadsStringLit_plain s h
  have hcont : ∀ c : Char, ¬ c = '"' →
      (('"' :: (s ++ ['"']) : Str)).contains c = s.contains c :=
    fun c hc => quoted_contains s c hc
  show parseValue ('"' :: (s ++ ['"'])) = Value.str s
  unfold parseValue
  rw [hps]
  have hlast' : (('"' :: (s ++ ['"']) : Str)).getLast?.getD ' ' = '"' := by
    rw [← List.getLastD_eq_getLast?]
    exact hlast
  by_cases hdot : s.contains '.' = true
  · have hdot' : (('"' :: (s ++ ['"']) : Str)).contains '.' = true := by
      rw [hcont '.' (by decide)]
      exact hdot
    have hmem : '.' ∈ s := List.mem_of_elem_eq_true hdot
    simp [sl, hfl, hlast', hjson, hdot', hmem]
  · have hdotf : s.contains '.' = false := Bool.not_eq_true _ ▸ hdot
    have hdot' : (('"' :: (s ++ ['"']) : Str)).contains '.' = false := by
      rw [hcont '.' (by decide)]
      exact hdotf
    have hmem : ¬ ('.' ∈ s) := by
      intro hm
      have hmm := List.elem_eq_true_of_mem hm
      rw [show List.elem '.' s = s.contains '.' from rfl, hdotf] at hmm
      exact Bool.false_ne_true hmm
    simp [sl, hint, hlast', hjson, hdot', hmem]

theorem cellValue_quoted (s : Str) (h : s.all plainChar = true)
    (prev : Value) (idx : Nat) :
    cellValue ('"' :: s ++ ['"']) prev idx = .str s := by
  unfold cellValue
  rw [if_neg (show ¬ ('"' :: s ++ ['"'] : Str) = GAS_TOKEN by
        intro hh
        rw [show GAS_TOKEN = ['_'] from rfl] at hh
        rcases s with _ | ⟨x, xs⟩ <;> simp at hh),
      if_neg (show ¬ ('"' :: s ++ ['"'] : Str) = LIQUID_TOKEN by
        intro hh
        rw [show LIQUID_TOKEN = ['^'] from rfl] at hh
        rcases s with _ | ⟨x, xs⟩ <;> simp at hh)]
  exact parseValue_quoted s h

theorem parseTableRow_single (cell tok : Str) (v : Value)
    (hcsv : parseCsvLine cell = [tok]) (hval : cellValue tok Value.null 0 = v) :
    parseTableRow cell ⟨[sl "c"], [], [(sl "c", Value.null)], 0, 1⟩ =
      ⟨[sl "c"], [[(sl "c", v)]], [(sl "c", v)], 1, 1⟩ := by
  unfold parseTableRow
  rw [hcsv]
  dsimp only [rowCells]
  rw [show (dictGet [(sl "c", Value.null)] (sl "c")).getD Value.null = Value.null from rfl]
  rw [hval]
  rfl

theorem decodeLine_cell (cell tok : Str) (v : Value)
    (hlast : isPySpace (cell.getLastD ' ') = false)
    (hhead : ¬ cell.headD ' ' = '@')
    (hne : ¬ cell = [])
    (hcsv : parseCsvLine cell = [tok])
    (hval : cellValue tok Value.null 0 = v) :
    decodeLine ⟨[], [(sl "data", ⟨[sl "c"], [], [(sl "c", Value.null)], 0, 1⟩)],
        some (sl "data")⟩ cell =
      .ok ⟨[], [(sl "data", ⟨[sl "c"], [[(sl "c", v)]], [(sl "c", v)], 1, 1⟩)],
        none⟩ := by
  unfold decodeLine
  rw [pyRstrip_eq_self cell (Or.inl hlast)]
  unfold decodeLineStripped
  rw [if_neg (show ¬ cell.isEmpty = true by
        rw [isEmpty_false_of_ne_nil cell hne]
        exact Bool.false_ne_true)]
  rw [show TABLE_MARKER = '@' from rfl]
  rw [if_neg hhead]
  dsimp only
  rw [show dictGet [(sl "data", (⟨[sl "c"], [], [(sl "c", Value.null)], 0, 1⟩ : TableState))]
        (sl "data") = some ⟨[sl "c"], [], [(sl "c", Value.null)], 0, 1⟩ from rfl]
  dsimp only
  rw [parseTableRow_single cell tok v hcsv hval]
  rfl

theorem decode_table1 (cell tok : Str) (v : Value)
    (hnl : cell.contains '\n' = false)
    (hlast : isPySpace (cell.getLastD ' ') = false)
    (hhead : ¬ cell.headD ' ' = '@')
    (hne : ¬ cell = [])
    (hcsv : parseCsvLine cell = [tok])
    (hval : cellValue tok Value.null 0 = v) :
    decode (sl "@data(1): c" ++ '\n' :: cell) =
      .ok (.arr [.obj [(sl "c", v)]]) := by
  have hstrip : pyStrip (sl "@data(1): c" ++ '\n' :: cell) =
      sl "@data(1): c" ++ '\n' :: cell := by
    refine pyStrip_eq_self _ (Or.inl (by show isPySpace '@' = false; decide)) (Or.inl ?h)
    rw [getLastD_append_right _ ('\n' :: cell) (by simp) ' ']
    rw [show ('\n' :: cell : Str) = ['\n'] ++ cell from rfl]
    rw [getLastD_append_right _ cell hne ' ']
    exact hlast
  have hsplit : splitOnCh '\n' (sl "@data(1): c" ++ '\n' :: cell) =
      [sl "@data(1): c", cell] :=
    splitOnCh_append '\n' _ cell (by decide) hnl
  unfold decode
  rw [if_neg (show ¬ (sl "@data(1): c" ++ '\n' :: cell : Str).isEmpty = true by
        rw [show (sl "@data(1): c" ++ '\n' :: cell : Str).isEmpty = false from rfl]
        exact Bool.false_ne_true)]
  rw [hstrip, hsplit]
  rw [show decodeLoop [sl "@data(1): c", cell] ⟨[], [], none⟩ =
      match decodeLine ⟨[], [], none⟩ (sl "@data(1): c") with
      | .error e => .error e
      | .ok st' => decodeLoop [cell] st' from rfl]
  rw [show decodeLine (⟨[], [], none⟩ : DecSt) (sl "@data(1): c") =
      .ok ⟨[], [(sl "data", ⟨[sl "c"], [], [(sl "c", Value.null)], 0, 1⟩)],
        some (sl "data")⟩ from rfl]
  dsimp only
  rw [show decodeLoop [cell] (⟨[], [(sl "data", ⟨[sl "c"], [], [(sl "c", Value.null)], 0, 1⟩)],
        some (sl "data")⟩ : DecSt) =
      match decodeLine ⟨[], [(sl "data", ⟨[sl "c"], [], [(sl "c", Value.null)], 0, 1⟩)],
        some (sl "data")⟩ cell with
      | .error e => .error e
      | .ok st' => decodeLoop [] st' from rfl]
  rw [decodeLine_cell cell tok v hlast hhead hne hcsv hval]
  rfl

theorem csvDoubled_cons (c : Char) (t : Str) :
    csvDoubled (c :: t) = (if c = '"' then ['"', '"'] else [c]) ++ csvDoubled t := by
  simp [csvDoubled]

theorem csvDoubled_append (a b : Str) :
    csvDoubled (a ++ b) = csvDoubled a ++ csvDoubled b := by
  simp [csvDoubled]

theorem csvDoubled_plain (s : Str) (h : s.all plainChar = true) :
    csvDoubled s = s := by
  induction s with
  | nil => rfl
  | cons c t ih =>
    simp only [List.all_cons, Bool.and_eq_true] at h
    rw [csvDoubled_cons, ih h.2]
    have hc := h.1
    simp only [plainChar, Bool.and_eq_true, Bool.not_eq_true', decide_eq_true_eq,
      decide_eq_false_iff_not] at hc
    rw [if_neg hc.1.2]
    rfl

/-- C4: amended.  Type-protected strings (numeric literals, reserved tokens,
float-parsable text) round-trip exactly through the table-cell path: the
encoder wraps them as a CSV-quoted JSON string and the decoder recovers the
original string, never a Number, Bool, or Null.  (For metadata values the
original claim fails: see the counterexample.) -/
theorem c4_protected_cell_roundtrip (s : Str)
    (hplain : s.all plainChar = true)
    (hprot : needsTypeProtection s = true) :
    decode (encode (.arr [.obj [(sl "c", .str s)]])) =
      .ok (.arr [.obj [(sl "c", .str s)]]) := by
  rw [encode_strCell, formatValue_str, if_pos hprot, jsonDumpsString_plain s hplain]
  have hexp : csvQuote ('"' :: s ++ ['"']) = '"' :: '"' :: '"' :: s ++ ['"', '"', '"'] := by
    rw [csvQuote_eq, show (('"' :: s ++ ['"']) : Str) = '"' :: (s ++ ['"']) from rfl,
      csvDoubled_cons, csvDoubled_append, csvDoubled_plain s hplain]
    simp [csvDoubled]
  refine decode_table1 (csvQuote ('"' :: s ++ ['"'])) ('"' :: s ++ ['"'])
    (.str s) ?hnl ?hlast ?hhead ?hne ?hcsv ?hval
  case hnl =>
    rw [hexp]
    simp only [contains_append', List.contains_cons]
    rw [plain_not_contains s hplain '\n' (by decide)]
    decide
  case hlast =>
    rw [hexp, getLastD_append_right _ ['"', '"', '"'] (by simp) ' ']
    decide
  case hhead =>
    rw [hexp]
    show ¬ ('"' : Char) = '@'
    decide
  case hne =>
    rw [hexp]
    simp
  case hcsv => exact parseCsvLine_csvQuote _
  case hval => exact cellValue_quoted s hplain Value.null 0

/-- C4 witness: the numeric-looking string `"123"` in a table cell
round-trips as a string. -/
theorem c4_protected_cell_roundtrip_witness :
    (sl "123").all plainChar = true ∧
    needsTypeProtection (sl "123") = true ∧
    decode (encode (.arr [.obj [(sl "c", .str (sl "123"))]])) =
      .ok (.arr [.obj [(sl "c", .str (sl "123"))]]) :=
  ⟨by decide, by decide,
    c4_protected_cell_roundtrip (sl "123") (by decide) (by decide)⟩

/-! ## Round-trip lemmas for flat scalar metadata objects (C1) -/

theorem toNat_ofNat_small (n : Nat) (h : n < 55296) : (Char.ofNat n).toNat = n := by
  rw [Char.ofNat, dif_pos (Or.inl h)]
  rfl

theorem isDig_toNat (c : Char) (h : isDig c = true) :
    48 ≤ c.toNat ∧ c.toNat ≤ 57 := by
  simp only [isDig, Bool.and_eq_true, decide_eq_true_eq] at h
  exact h

theorem isDig_ofNat_digit (n : Nat) (h : n < 10) :
    isDig (Char.ofNat (48 + n)) = true := by
  simp only [isDig, Bool.and_eq_true, decide_eq_true_eq]
  constructor
  · show (48 : Nat) ≤ (Char.ofNat (48 + n)).toNat
    rw [toNat_ofNat_small (48 + n) (by omega)]
    omega
  · show (Char.ofNat (48 + n)).toNat ≤ 57
    rw [toNat_ofNat_small (48 + n) (by omega)]
    omega

theorem isDig_not_pySpace (c : Char) (h : isDig c = true) :
    isPySpace c = false := by
  have hb := isDig_toNat c h
  simp only [isPySpace, Bool.or_eq_false_iff, decide_eq_false_iff_not]
  refine ⟨⟨⟨⟨⟨?_, ?_⟩, ?_⟩, ?_⟩, ?_⟩, ?_⟩ <;>
    · intro he
      subst he
      exact absurd hb (by decide)

theorem isWordChar_toNat (c : Char) (h : isWordChar c = true) :
    (97 ≤ c.toNat ∧ c.toNat ≤ 122) ∨ (65 ≤ c.toNat ∧ c.toNat ≤ 90) ∨
    (48 ≤ c.toNat ∧ c.toNat ≤ 57) ∨ c.toNat = 95 := by
  simp only [isWordChar, isDig, Bool.or_eq_true, Bool.and_eq_true,
    decide_eq_true_eq] at h
  rcases h with ((h | h) | h) | h
  · exact .inl h
  · exact .inr (.inl h)
  · exact .inr (.inr (.inl h))
  · subst h
    exact .inr (.inr (.inr (by decide)))

theorem isWordChar_not_pySpace (c : Char) (h : isWordChar c = true) :
    isPySpace c = false := by
  have hb := isWordChar_toNat c h
  simp only [isPySpace, Bool.or_eq_false_iff, decide_eq_false_iff_not]
  refine ⟨⟨⟨⟨⟨?_, ?_⟩, ?_⟩, ?_⟩, ?_⟩, ?_⟩ <;>
    · intro he
      subst he
      exact absurd hb (by decide)

theorem getLastD_mem (c : Char) (t : Str) (d : Char) :
    (c :: t).getLastD d ∈ c :: t := by
  induction t generalizing c with
  | nil => simp [List.getLastD]
  | cons x xs ih =>
    rw [List.getLastD_eq_getLast?, List.getLast?_cons_cons,
      ← List.getLastD_eq_getLast?]
    exact List.mem_cons_of_mem c (ih x)

theorem contains_eq_false_of_all {p : Char → Bool} (s : Str)
    (h : s.all p = true) (c : Char) (hc : p c = false) :
    s.contains c = false := by
  induction s with
  | nil => rfl
  | cons x xs ih =>
    simp only [List.all_cons, Bool.and_eq_true] at h
    rw [List.contains_cons, ih h.2, Bool.or_false]
    simp only [beq_eq_false_iff_ne, ne_eq]
    intro he
    subst he
    rw [h.1] at hc
    exact Bool.true_eq_false ▸ hc

theorem pyStrip_eq_self_of_all {p : Char → Bool} (s : Str)
    (h : s.all p = true) (himp : ∀ c, p c = true → isPySpace c = false) :
    pyStrip s = s := by
  rcases s with _ | ⟨c, t⟩
  · rfl
  · refine pyStrip_eq_self _ (Or.inl ?h1) (Or.inl ?h2)
    case h1 =>
      simp only [List.all_cons, Bool.and_eq_true] at h
      exact himp c h.1
    case h2 =>
      have hm := getLastD_mem c t ' '
      have := List.all_eq_true.mp h _ hm
      exact himp _ this

theorem natDigitsCore_all_dig : ∀ fuel n acc, acc.all isDig = true →
    (natDigitsCore fuel n acc).all isDig = true := by
  intro fuel
  induction fuel with
  | zero =>
    intro n acc hacc
    simp only [natDigitsCore, List.all_cons, Bool.and_eq_true]
    exact ⟨isDig_ofNat_digit (n % 10) (by omega), hacc⟩
  | succ fuel ih =>
    intro n acc hacc
    rw [natDigitsCore]
    split
    · rename_i hlt
      simp only [List.all_cons, Bool.and_eq_true]
      exact ⟨isDig_ofNat_digit n hlt, hacc⟩
    · refine ih (n / 10) _ ?_
      simp only [List.all_cons, Bool.and_eq_true]
      exact ⟨isDig_ofNat_digit (n % 10) (by omega), hacc⟩

theorem natDigitsCore_shape : ∀ fuel n acc, ∃ c rest,
    natDigitsCore fuel n acc = c :: rest ∧ isDig c = true := by
  intro fuel
  induction fuel with
  | zero =>
    intro n acc
    exact ⟨_, _, rfl, isDig_ofNat_digit (n % 10) (by omega)⟩
  | succ fuel ih =>
    intro n acc
    rw [natDigitsCore]
    split
    · rename_i hlt
      exact ⟨_, _, rfl, isDig_ofNat_digit n hlt⟩
    · exact ih (n / 10) _

theorem digitpartAux_cons_dig (a : Nat) (c : Char) (cs : Str)
    (h : isDig c = true) :
    digitpartAux a (c :: cs) = digitpartAux (a * 10 + (c.toNat - 48)) cs := by
  rw [digitpartAux.eq_def]
  split
  · rename_i heq
    exact absurd heq (by simp)
  · rename_i a' c' cs' heq
    injection heq with h1 h2
    subst h1
    subst h2
    rw [if_pos h]

theorem digitpartAux_core : ∀ fuel n acc, n ≤ fuel →
    ∃ p : Nat, ∀ a, digitpartAux a (natDigitsCore fuel n acc) =
      digitpartAux (a * p + n) acc := by
  intro fuel
  induction fuel with
  | zero =>
    intro n acc hn
    refine ⟨10, fun a => ?_⟩
    have hn0 : n = 0 := Nat.le_zero.mp hn
    subst hn0
    simp only [natDigitsCore]
    rw [digitpartAux_cons_dig a _ acc (isDig_ofNat_digit (0 % 10) (by omega))]
    congr 1
  | succ fuel ih =>
    intro n acc hn
    by_cases hlt : n < 10
    · refine ⟨10, fun a => ?_⟩
      rw [natDigitsCore, if_pos hlt]
      rw [digitpartAux_cons_dig a _ acc (isDig_ofNat_digit n hlt)]
      congr 1
      rw [toNat_ofNat_small (48 + n) (by omega)]
      omega
    · obtain ⟨p, hp⟩ := ih (n / 10) (Char.ofNat (48 + n % 10) :: acc) (by omega)
      refine ⟨p * 10, fun a => ?_⟩
      rw [natDigitsCore, if_neg hlt]
      rw [hp a]
      rw [digitpartAux_cons_dig _ _ acc (isDig_ofNat_digit (n % 10) (by omega))]
      congr 1
      rw [toNat_ofNat_small (48 + n % 10) (by omega)]
      rw [show a * (p * 10) = a * p * 10 from (Nat.mul_assoc a p 10).symm]
      omega

theorem parseDigitpart_natDigits (n : Nat) :
    parseDigitpart (natDigits n) = some (n, []) := by
  obtain ⟨c, rest, heq, hdig⟩ := natDigitsCore_shape n n []
  obtain ⟨p, hp⟩ := digitpartAux_core n n [] (Nat.le_refl n)
  unfold parseDigitpart natDigits
  rw [heq]
  dsimp only
  rw [if_pos hdig, ← heq, hp 0]
  show (some ((0 * p + n, []) : Nat × Str) : Option (Nat × Str)) = some (n, [])
  simp

theorem natDigits_all_dig (n : Nat) : (natDigits n).all isDig = true :=
  natDigitsCore_all_dig n n [] rfl

theorem pyStrip_pyStrInt (i : Int) : pyStrip (pyStrInt i) = pyStrInt i := by
  unfold pyStrInt
  split
  · obtain ⟨c, rest, heq, hdig⟩ := natDigitsCore_shape i.natAbs i.natAbs []
    rw [show natDigits i.natAbs = natDigitsCore i.natAbs i.natAbs [] from rfl, heq]
    refine pyStrip_eq_self _
      (Or.inl (by show isPySpace '-' = false; decide)) (Or.inl ?h2)
    rw [List.getLastD_eq_getLast?, List.getLast?_cons_cons,
      ← List.getLastD_eq_getLast?]
    have hm := getLastD_mem c rest ' '
    have hall : (c :: rest).all isDig = true := heq ▸ natDigits_all_dig i.natAbs
    exact isDig_not_pySpace _ (List.all_eq_true.mp hall _ hm)
  · exact pyStrip_eq_self_of_all _ (natDigits_all_dig i.natAbs) isDig_not_pySpace

theorem pyIntParse_pyStrInt (i : Int) : pyIntParse (pyStrInt i) = some i := by
  unfold pyIntParse
  rw [pyStrip_pyStrInt]
  by_cases hneg : i < 0
  · rw [show pyStrInt i = '-' :: natDigits i.natAbs from by
        unfold pyStrInt; rw [if_pos hneg]]
    show (match parseDigitpart (natDigits i.natAbs) with
          | some (n, []) => some ((-1 : Int) * (n : Int))
          | _ => none) = some i
    rw [parseDigitpart_natDigits]
    dsimp only
    simp only [Option.some.injEq]
    omega
  · rw [show pyStrInt i = natDigits i.natAbs from by
        unfold pyStrInt; rw [if_neg hneg]]
    obtain ⟨c, rest, heq, hdig⟩ := natDigitsCore_shape i.natAbs i.natAbs []
    rw [show natDigits i.natAbs = natDigitsCore i.natAbs i.natAbs [] from rfl, heq]
    dsimp only
    have hm : (match c :: rest with
        | '-' :: r => ((-1 : Int), r)
        | '+' :: r => ((1 : Int), r)
        | r => ((1 : Int), r)) = ((1 : Int), c :: rest) := by
      split
      · simp_all [isDig]
      · simp_all [isDig]
      · rfl
    show (match parseDigitpart (match c :: rest with
          | '-' :: r => ((-1 : Int), r)
          | '+' :: r => ((1 : Int), r)
          | r => ((1 : Int), r)).2 with
        | some (n, []) => some ((match c :: rest with
            | '-' :: r => ((-1 : Int), r)
            | '+' :: r => ((1 : Int), r)
            | r => ((1 : Int), r)).1 * (n : Int))
        | _ => none) = some i
    rw [hm]
    dsimp only
    rw [← heq]
    have hpd : parseDigitpart (natDigitsCore i.natAbs i.natAbs []) =
        some (i.natAbs, []) := parseDigitpart_natDigits i.natAbs
    rw [hpd]
    dsimp only
    simp only [Option.some.injEq]
    omega

theorem pyStrInt_shape (i : Int) : ∃ h t, pyStrInt i = h :: t ∧
    (isDig h = true ∨ h = '-') ∧ t.all isDig = true := by
  unfold pyStrInt
  split
  · obtain ⟨c, rest, heq, hdig⟩ := natDigitsCore_shape i.natAbs i.natAbs []
    refine ⟨'-', natDigits i.natAbs, rfl, Or.inr rfl, natDigits_all_dig i.natAbs⟩
  · obtain ⟨c, rest, heq, hdig⟩ := natDigitsCore_shape i.natAbs i.natAbs []
    have hall : (c :: rest).all isDig = true := heq ▸ natDigits_all_dig i.natAbs
    simp only [List.all_cons, Bool.and_eq_true] at hall
    exact ⟨c, rest, heq, Or.inl hdig, hall.2⟩

theorem pyStrInt_no_dot (i : Int) : (pyStrInt i).contains '.' = false := by
  obtain ⟨h, t, heq, hh, ht⟩ := pyStrInt_shape i
  rw [heq, List.contains_cons]
  rw [contains_eq_false_of_all t ht '.' (by decide)]
  simp only [Bool.or_false, beq_eq_false_iff_ne, ne_eq]
  rcases hh with hd | hd
  · intro he
    subst he
    exact absurd hd (by decide)
  · subst hd
    decide

theorem stripDot0_pyStrInt (i : Int) : stripDot0 (pyStrInt i) = pyStrInt i := by
  unfold stripDot0
  rw [if_neg]
  intro hsuf
  have hs := List.isSuffixOf_iff_suffix.mp hsuf
  obtain ⟨pre, hpre⟩ := hs
  have hmem : '.' ∈ pyStrInt i := by
    rw [← hpre]
    simp [sl]
  have := List.elem_eq_true_of_mem hmem
  rw [show List.elem '.' (pyStrInt i) = (pyStrInt i).contains '.' from rfl,
    pyStrInt_no_dot] at this
  exact Bool.false_ne_true this

theorem formatValue_int (i : Int) : formatValue (.int i) = pyStrInt i :=
  stripDot0_pyStrInt i

theorem parseValue_pyStrInt (i : Int) : parseValue (pyStrInt i) = .int i := by
  obtain ⟨h, t, heq, hh, ht⟩ := pyStrInt_shape i
  have hps : pyStrip (pyStrInt i) = pyStrInt i := pyStrip_pyStrInt i
  have hdotf : (pyStrInt i).contains '.' = false := pyStrInt_no_dot i
  have hint := pyIntParse_pyStrInt i
  have hchar : ¬ h = 'T' ∧ ¬ h = 'F' ∧ ¬ h = 'n' ∧ ¬ h = '{' ∧ ¬ h = '[' := by
    rcases hh with hd | hd
    · have hb := isDig_toNat h hd
      refine ⟨?_, ?_, ?_, ?_, ?_⟩ <;>
        · intro he
          subst he
          exact absurd hb (by decide)
    · subst hd
      exact ⟨by decide, by decide, by decide, by decide, by decide⟩
  have hmem : ¬ ('.' ∈ pyStrInt i) := by
    intro hm
    have hmm := List.elem_eq_true_of_mem hm
    rw [show List.elem '.' (pyStrInt i) = (pyStrInt i).contains '.' from rfl,
      hdotf] at hmm
    exact Bool.false_ne_true hmm
  unfold parseValue
  rw [hps, heq]
  rw [heq] at hint hdotf hmem
  simp [sl, hint, hdotf, hmem, hchar.1, hchar.2.1, hchar.2.2.1,
    hchar.2.2.2.1, hchar.2.2.2.2]

theorem formatValue_scalar_roundtrip (v : Value) (h : scalarSafe v = true) :
    parseValue (formatValue v) = v := by
  rcases v with _ | b | n | l | s | xs | kvs
  · show parseValue (sl "null") = .null
    rfl
  · rcases b with _ | _
    · show parseValue (sl "F") = .bool false
      rfl
    · show parseValue (sl "T") = .bool true
      rfl
  · rw [formatValue_int, parseValue_pyStrInt]
  · exact absurd h (by simp [scalarSafe])
  · exact absurd h (by simp [scalarSafe])
  · exact absurd h (by simp [scalarSafe])
  · exact absurd h (by simp [scalarSafe])

theorem isEmpty_false_of_ne_nil' {α : Type} (b : List α) (h : ¬ b = []) :
    b.isEmpty = false := by
  rcases b with _ | ⟨x, xs⟩
  · exact absurd rfl h
  · rfl

theorem isCandidate_scalar (v : Value) (h : scalarSafe v = true) :
    isCandidate v = false := by
  rcases v with _ | b | n | l | s | xs | kvs <;> first
    | rfl
    | exact absurd h (by simp [scalarSafe])

theorem candidatesOf_scalar (kvs : List (Str × Value))
    (hvals : kvs.all (fun kv => scalarSafe kv.2) = true) :
    candidatesOf kvs = [] := by
  unfold candidatesOf
  rw [List.filter_eq_nil.mpr, List.map_nil]
  intro kv hm
  rw [isCandidate_scalar kv.2 (List.all_eq_true.mp hvals kv hm)]
  exact Bool.false_ne_true

theorem extractPrimaryStream_scalar (kvs : List (Str × Value))
    (hvals : kvs.all (fun kv => scalarSafe kv.2) = true) :
    extractPrimaryStream (.obj kvs) = (none, kvs, none) := by
  dsimp only [extractPrimaryStream]
  rw [candidatesOf_scalar kvs hvals]
  rfl

theorem flattenItems0_scalar (kvs : List (Str × Value))
    (hvals : kvs.all (fun kv => scalarSafe kv.2) = true) :
    flattenItems0 kvs [] = kvs := by
  induction kvs with
  | nil => rfl
  | cons kv rest ih =>
    simp only [List.all_cons, Bool.and_eq_true] at hvals
    obtain ⟨k, v⟩ := kv
    dsimp only [flattenItems0]
    rcases v with _ | b | n | l | s | xs | kvs' <;> first
      | (rw [ih hvals.2]; rfl)
      | exact absurd hvals.1 (by simp [scalarSafe])

theorem dictSet_not_mem {α : Type} (d : List (Str × α)) (k : Str) (v : α)
    (h : ¬ k ∈ d.map Prod.fst) : dictSet d k v = d ++ [(k, v)] := by
  induction d with
  | nil => rfl
  | cons kv rest ih =>
    simp only [List.map_cons, List.mem_cons, not_or] at h
    show (if kv.1 = k then (k, v) :: rest else kv :: dictSet rest k v) = _
    rw [if_neg (fun he => h.1 he.symm), ih h.2]
    rfl

theorem foldl_dictSet_nodup {α : Type} :
    ∀ (kvs acc : List (Str × α)),
    (acc.map Prod.fst ++ kvs.map Prod.fst).Nodup →
    kvs.foldl (fun d kv => dictSet d kv.1 kv.2) acc = acc ++ kvs := by
  intro kvs
  induction kvs with
  | nil =>
    intro acc _
    simp
  | cons kv rest ih =>
    intro acc hnd
    simp only [List.map_cons] at hnd
    have hnotmem : ¬ kv.1 ∈ acc.map Prod.fst := by
      rcases List.nodup_append.mp hnd with ⟨_, _, hdisj⟩
      intro hm
      exact hdisj hm (List.mem_cons_self _ _)
    show List.foldl _ (dictSet acc kv.1 kv.2) rest = _
    rw [dictSet_not_mem acc kv.1 kv.2 hnotmem]
    have hnd' : ((acc ++ [kv]).map Prod.fst ++ rest.map Prod.fst).Nodup := by
      rw [List.map_append]
      simp only [List.map_cons, List.map_nil]
      rw [List.append_assoc]
      rw [show ([kv.1] ++ rest.map Prod.fst : List Str) =
        kv.1 :: rest.map Prod.fst from rfl]
      exact hnd
    rw [ih (acc ++ [kv]) hnd']
    simp

theorem dictOfItems_nodup {α : Type} (kvs : List (Str × α))
    (h : (kvs.map Prod.fst).Nodup) : dictOfItems kvs = kvs := by
  have := foldl_dictSet_nodup kvs [] (by simpa using h)
  simpa using this

theorem pyFlatten_obj_scalar (kvs : List (Str × Value))
    (hvals : kvs.all (fun kv => scalarSafe kv.2) = true)
    (hnd : (kvs.map Prod.fst).Nodup) :
    pyFlatten (.obj kvs) [] 0 = kvs := by
  show dictOfItems (if (0 : Nat) = 0 then flattenItems0 kvs []
    else flattenItems1 kvs []) = kvs
  rw [if_pos rfl, flattenItems0_scalar kvs hvals, dictOfItems_nodup kvs hnd]

theorem writeMetadata_scalar (kvs : List (Str × Value))
    (hvals : kvs.all (fun kv => scalarSafe kv.2) = true)
    (hnd : (kvs.map Prod.fst).Nodup) :
    writeMetadata kvs =
      (sortByKey kvs).map (fun kv => kv.1 ++ META_SEPARATOR ++ formatValue kv.2) := by
  unfold writeMetadata
  rw [pyFlatten_obj_scalar kvs hvals hnd]

theorem encode_obj_meta (kvs : List (Str × Value)) (hne : ¬ kvs = [])
    (hvals : kvs.all (fun kv => scalarSafe kv.2) = true) :
    encode (.obj kvs) = joinWith ['
'] (writeMetadata kvs) := by
  unfold encode
  rw [extractPrimaryStream_scalar kvs hvals]
  dsimp only
  rw [isEmpty_false_of_ne_nil' kvs hne]
  simp

theorem splitOnCh_ne_nil (ch : Char) : ∀ s, ¬ splitOnCh ch s = [] := by
  intro s
  induction s with
  | nil => simp [splitOnCh]
  | cons c cs ih =>
    simp only [splitOnCh]
    rcases hsp : splitOnCh ch cs with _ | ⟨p, ps⟩
    · exact absurd hsp ih
    · dsimp only
      split <;> simp

theorem splitOnCh_cons_sep (ch : Char) (a b : Str)
    (ha : a.contains ch = false) :
    splitOnCh ch (a ++ ch :: b) = a :: splitOnCh ch b := by
  induction a with
  | nil =>
    show splitOnCh ch (ch :: b) = [] :: splitOnCh ch b
    simp only [splitOnCh]
    rcases hsp : splitOnCh ch b with _ | ⟨p, ps⟩
    · exact absurd hsp (splitOnCh_ne_nil ch b)
    · simp
  | cons c t ih =>
    simp only [List.contains_cons, Bool.or_eq_false_iff] at ha
    show splitOnCh ch (c :: (t ++ ch :: b)) = (c :: t) :: splitOnCh ch b
    simp only [splitOnCh]
    rw [ih ha.2]
    have hne : ¬ c = ch := by
      intro he
      subst he
      simp at ha
    simp [hne]

theorem joinWith_ne_nil (sep : Str) : ∀ lines : List Str, ¬ lines = [] →
    (∀ l ∈ lines, ¬ l = []) → ¬ joinWith sep lines = [] := by
  intro lines
  induction lines with
  | nil => intro h; exact absurd rfl h
  | cons p rest ih =>
    intro _ hall
    rcases rest with _ | ⟨q, qs⟩
    · exact hall p (by simp)
    · show ¬ p ++ sep ++ joinWith sep (q :: qs) = []
      have hp := hall p (by simp)
      rcases p with _ | ⟨x, xs⟩
      · exact absurd rfl hp
      · simp

theorem splitOnCh_joinWith (ch : Char) : ∀ lines : List Str, ¬ lines = [] →
    (∀ l ∈ lines, l.contains ch = false) →
    splitOnCh ch (joinWith [ch] lines) = lines := by
  intro lines
  induction lines with
  | nil => intro h; exact absurd rfl h
  | cons p rest ih =>
    intro _ hall
    rcases rest with _ | ⟨q, qs⟩
    · exact splitOnCh_not_mem ch p (hall p (by simp))
    · show splitOnCh ch (p ++ [ch] ++ joinWith [ch] (q :: qs)) = p :: q :: qs
      rw [show p ++ [ch] ++ joinWith [ch] (q :: qs) =
        p ++ ch :: joinWith [ch] (q :: qs) from by simp]
      rw [splitOnCh_cons_sep ch _ _ (hall p (by simp))]
      rw [ih (by simp) (fun l hl => hall l (by simp [hl]))]

theorem headD_append_left (p t : Str) (hp : ¬ p = []) (d : Char) :
    (p ++ t).headD d = p.headD d := by
  rcases p with _ | ⟨c, cs⟩
  · exact absurd rfl hp
  · rfl

theorem pyStrInt_contains_false (i : Int) (c : Char)
    (hc1 : isDig c = false) (hc2 : ¬ c = '-') :
    (pyStrInt i).contains c = false := by
  obtain ⟨h, t, heq, hh, ht⟩ := pyStrInt_shape i
  rw [heq, List.contains_cons]
  rw [contains_eq_false_of_all t ht c hc1]
  simp only [Bool.or_false, beq_eq_false_iff_ne, ne_eq]
  rcases hh with hd | hd
  · intro he
    subst he
    rw [hd] at hc1
    exact Bool.true_eq_false ▸ hc1
  · subst hd
    exact fun he => hc2 he

theorem pyStrInt_last_not_space (i : Int) :
    isPySpace ((pyStrInt i).getLastD ' ') = false := by
  unfold pyStrInt
  split
  · obtain ⟨c, rest, heq, hdig⟩ := natDigitsCore_shape i.natAbs i.natAbs []
    rw [show natDigits i.natAbs = natDigitsCore i.natAbs i.natAbs [] from rfl, heq]
    rw [List.getLastD_eq_getLast?, List.getLast?_cons_cons,
      ← List.getLastD_eq_getLast?]
    have hm := getLastD_mem c rest ' '
    have hall : (c :: rest).all isDig = true := heq ▸ natDigits_all_dig i.natAbs
    exact isDig_not_pySpace _ (List.all_eq_true.mp hall _ hm)
  · obtain ⟨c, rest, heq, hdig⟩ := natDigitsCore_shape i.natAbs i.natAbs []
    rw [show natDigits i.natAbs = natDigitsCore i.natAbs i.natAbs [] from rfl, heq]
    have hm := getLastD_mem c rest ' '
    have hall : (c :: rest).all isDig = true := heq ▸ natDigits_all_dig i.natAbs
    exact isDig_not_pySpace _ (List.all_eq_true.mp hall _ hm)

theorem formatValue_scalar_facts (v : Value) (h : scalarSafe v = true) :
    ¬ formatValue v = [] ∧ (formatValue v).contains '\n' = false ∧
    isPySpace ((formatValue v).getLastD ' ') = false ∧
    pyStrip (formatValue v) = formatValue v := by
  rcases v with _ | b | n | l | s | xs | kvs
  · exact ⟨by decide, by decide, by decide, by decide⟩
  · rcases b with _ | _
    · exact ⟨by decide, by decide, by decide, by decide⟩
    · exact ⟨by decide, by decide, by decide, by decide⟩
  · rw [formatValue_int]
    obtain ⟨hh, t, heq, _, _⟩ := pyStrInt_shape n
    refine ⟨by rw [heq]; simp, ?_, pyStrInt_last_not_space n, pyStrip_pyStrInt n⟩
    exact pyStrInt_contains_false n '\n' (by decide) (by decide)
  · exact absurd h (by simp [scalarSafe])
  · exact absurd h (by simp [scalarSafe])
  · exact absurd h (by simp [scalarSafe])
  · exact absurd h (by simp [scalarSafe])

theorem metaKeySafe_spec (k : Str) (h : metaKeySafe k = true) :
    ¬ k = [] ∧ k.all isWordChar = true := by
  simp only [metaKeySafe, Bool.and_eq_true, Bool.not_eq_true'] at h
  refine ⟨?_, h.2⟩
  intro he
  subst he
  exact Bool.true_eq_false ▸ h.1

theorem isWordChar_ne (c w : Char) (h : isWordChar c = true)
    (hw : isWordChar w = false) : ¬ c = w := by
  intro he
  subst he
  rw [h] at hw
  exact Bool.true_eq_false ▸ hw

theorem metaKey_facts (k : Str) (h : metaKeySafe k = true) :
    pyStrip k = k ∧ k.contains ':' = false ∧ k.contains '.' = false ∧
    k.contains '\n' = false := by
  obtain ⟨hne, hall⟩ := metaKeySafe_spec k h
  refine ⟨pyStrip_eq_self_of_all k hall isWordChar_not_pySpace, ?_, ?_, ?_⟩
  · exact contains_eq_false_of_all k hall ':' (by decide)
  · exact contains_eq_false_of_all k hall '.' (by decide)
  · exact contains_eq_false_of_all k hall '\n' (by decide)

theorem strContains_sep (k r : Str) :
    strContains (k ++ META_SEPARATOR ++ r) META_SEPARATOR = true := by
  unfold strContains
  rw [List.any_eq_true]
  refine ⟨k.length, List.mem_range.mpr ?_, ?_⟩
  · simp only [List.length_append]
    omega
  · rw [List.append_assoc, List.drop_left]
    rw [List.isPrefixOf_iff_prefix]
    exact List.prefix_append META_SEPARATOR r

theorem splitOnce_at_sep (k r : Str) (hk : k.contains ':' = false) :
    splitOnce (k ++ META_SEPARATOR ++ r) META_SEPARATOR = some (k, r) := by
  induction k with
  | nil =>
    show splitOnce (META_SEPARATOR ++ r) META_SEPARATOR = some ([], r)
    simp [splitOnce, META_SEPARATOR, sl, List.isPrefixOf]
  | cons c t ih =>
    simp only [List.contains_cons, Bool.or_eq_false_iff] at hk
    show splitOnce (c :: (t ++ META_SEPARATOR ++ r)) META_SEPARATOR =
      some (c :: t, r)
    simp only [splitOnce]
    rw [if_neg ?hpre]
    case hpre =>
      show ¬ (META_SEPARATOR.isPrefixOf (c :: (t ++ META_SEPARATOR ++ r))) = true
      show ¬ ((':' == c) && ([' '].isPrefixOf (t ++ META_SEPARATOR ++ r))) = true
      have : (':' == c) = false := by
        simp only [beq_eq_false_iff_ne, ne_eq]
        intro he
        subst he
        simp at hk
      rw [this]
      simp
    rw [ih hk.2]

theorem decodeMetaLine_entry (st : DecSt) (k : Str) (v : Value)
    (hk : metaKeySafe k = true) (hv : scalarSafe v = true) :
    decodeMetaLine st (k ++ META_SEPARATOR ++ formatValue v) =
      .ok { st with metadata := dictSet st.metadata k v, cur := none } := by
  obtain ⟨hstrip, hcol, _, _⟩ := metaKey_facts k hk
  obtain ⟨_, _, _, hfstrip⟩ := formatValue_scalar_facts v hv
  unfold decodeMetaLine
  rw [if_pos (strContains_sep k (formatValue v))]
  rw [splitOnce_at_sep k (formatValue v) hcol]
  dsimp only
  rw [hstrip, hfstrip, formatValue_scalar_roundtrip v hv]

theorem decodeLineStripped_meta (md : List (Str × Value)) (k : Str) (v : Value)
    (hk : metaKeySafe k = true) (hv : scalarSafe v = true) :
    decodeLineStripped ⟨md, [], none⟩ (k ++ META_SEPARATOR ++ formatValue v) =
      .ok ⟨dictSet md k v, [], none⟩ := by
  obtain ⟨hne, hall⟩ := metaKeySafe_spec k hk
  rcases k with _ | ⟨kc, kt⟩
  · exact absurd rfl hne
  · unfold decodeLineStripped
    rw [if_neg (by simp)]
    rw [show TABLE_MARKER = '@' from rfl]
    rw [if_neg ?hhead]
    case hhead =>
      rw [headD_append_left _ _ (by simp) ' ']
      rw [headD_append_left (kc :: kt) META_SEPARATOR (by simp) ' ']
      show ¬ kc = '@'
      simp only [List.all_cons, Bool.and_eq_true] at hall
      exact isWordChar_ne kc '@' hall.1 (by decide)
    dsimp only
    rw [decodeMetaLine_entry ⟨md, [], none⟩ (kc :: kt) v hk hv]

theorem decodeLine_meta (md : List (Str × Value)) (k : Str) (v : Value)
    (hk : metaKeySafe k = true) (hv : scalarSafe v = true) :
    decodeLine ⟨md, [], none⟩ (k ++ META_SEPARATOR ++ formatValue v) =
      .ok ⟨dictSet md k v, [], none⟩ := by
  obtain ⟨hfne, _, hflast, _⟩ := formatValue_scalar_facts v hv
  unfold decodeLine
  rw [pyRstrip_eq_self _ (Or.inl ?hlast)]
  case hlast =>
    rw [List.append_assoc, getLastD_append_right _ _ ?hne2 ' ']
    case hne2 =>
      intro he
      rcases List.append_eq_nil.mp he with ⟨_, h2⟩
      exact hfne h2
    rw [getLastD_append_right _ _ hfne ' ']
    exact hflast
  exact decodeLineStripped_meta md k v hk hv

theorem decodeLoop_meta : ∀ (kvs : List (Str × Value)) (md : List (Str × Value)),
    kvs.all (fun kv => metaKeySafe kv.1) = true →
    kvs.all (fun kv => scalarSafe kv.2) = true →
    decodeLoop (kvs.map (fun kv => kv.1 ++ META_SEPARATOR ++ formatValue kv.2))
        ⟨md, [], none⟩ =
      .ok ⟨kvs.foldl (fun d kv => dictSet d kv.1 kv.2) md, [], none⟩ := by
  intro kvs
  induction kvs with
  | nil => intro md _ _; rfl
  | cons kv rest ih =>
    intro md hks hvs
    simp only [List.all_cons, Bool.and_eq_true] at hks hvs
    simp only [List.map_cons, decodeLoop]
    rw [decodeLine_meta md kv.1 kv.2 hks.1 hvs.1]
    exact ih (dictSet md kv.1 kv.2) hks.2 hvs.2

theorem unflattenFold_nodot : ∀ (kvs d : List (Str × Value)),
    kvs.all (fun kv => metaKeySafe kv.1) = true →
    unflattenFold kvs d =
      .ok (kvs.foldl (fun d kv => dictSet d kv.1 kv.2) d) := by
  intro kvs
  induction kvs with
  | nil => intro d _; rfl
  | cons kv rest ih =>
    intro d hks
    simp only [List.all_cons, Bool.and_eq_true] at hks
    obtain ⟨_, _, hdot, _⟩ := metaKey_facts kv.1 hks.1
    simp only [unflattenFold, unflattenStep]
    rw [hdot]
    exact ih (dictSet d kv.1 kv.2) hks.2

theorem decodeFinish_meta (kvs : List (Str × Value))
    (hks : kvs.all (fun kv => metaKeySafe kv.1) = true)
    (hvs : kvs.all (fun kv => scalarSafe kv.2) = true)
    (hnd : (kvs.map Prod.fst).Nodup) :
    decodeFinish ⟨kvs, [], none⟩ = .ok (.obj kvs) := by
  have h2 : pyUnflatten kvs = .ok kvs := by
    unfold pyUnflatten
    rw [unflattenFold_nodot kvs [] hks]
    rw [foldl_dictSet_nodup kvs [] (by simpa using hnd)]
    simp
  show (match pyUnflatten kvs with
    | .error e => (.error e : Except PyErr Value)
    | .ok result =>
      match result with
      | [(k, .arr xs)] =>
        if k = sl "data" then .ok (.arr xs) else .ok (.obj result)
      | _ => .ok (.obj result)) = .ok (.obj kvs)
  rw [h2]
  rcases kvs with _ | ⟨⟨k, v⟩, rest⟩
  · rfl
  · rcases rest with _ | ⟨kw, rest'⟩
    · simp only [List.all_cons, Bool.and_eq_true] at hvs
      rcases v with _ | b | n | l | s' | xs | kvs' <;> first
        | rfl
        | exact absurd hvs.1 (by simp [scalarSafe])
    · cases v <;> rfl

theorem sortByKey_all {α : Type} (p : Str × α → Bool) (l : List (Str × α))
    (h : l.all p = true) : (sortByKey l).all p = true :=
  List.all_eq_true.mpr (fun x hx =>
    List.all_eq_true.mp h x ((sortByKey_perm l).mem_iff.mp hx))

theorem sortByKey_ne_nil {α : Type} (l : List (Str × α)) (h : ¬ l = []) :
    ¬ sortByKey l = [] := by
  intro he
  have := (sortByKey_perm l).length_eq
  rw [he] at this
  rcases l with _ | ⟨x, xs⟩
  · exact absurd rfl h
  · simp at this

theorem sortByKey_keys_nodup {α : Type} (l : List (Str × α))
    (h : (l.map Prod.fst).Nodup) : ((sortByKey l).map Prod.fst).Nodup :=
  (((sortByKey_perm l).map Prod.fst).nodup_iff).mpr h

theorem line_facts (kv : Str × Value) (hk : metaKeySafe kv.1 = true)
    (hv : scalarSafe kv.2 = true) :
    ¬ (kv.1 ++ META_SEPARATOR ++ formatValue kv.2) = [] ∧
    (kv.1 ++ META_SEPARATOR ++ formatValue kv.2).contains '\n' = false ∧
    isPySpace ((kv.1 ++ META_SEPARATOR ++ formatValue kv.2).headD ' ') = false ∧
    isPySpace ((kv.1 ++ META_SEPARATOR ++ formatValue kv.2).getLastD ' ') = false := by
  obtain ⟨hne, hall⟩ := metaKeySafe_spec kv.1 hk
  obtain ⟨_, _, _, hknl⟩ := metaKey_facts kv.1 hk
  obtain ⟨hfne, hfnl, hflast, _⟩ := formatValue_scalar_facts kv.2 hv
  refine ⟨?_, ?_, ?_, ?_⟩
  · intro he
    rcases List.append_eq_nil.mp he with ⟨_, h2⟩
    exact hfne h2
  · rw [contains_append', contains_append', hknl, hfnl]
    decide
  · rw [headD_append_left _ _ (fun he =>
      hne (List.append_eq_nil.mp he).1) ' ']
    rw [headD_append_left kv.1 META_SEPARATOR hne ' ']
    rcases hk2 : kv.1 with _ | ⟨kc, kt⟩
    · exact absurd hk2 hne
    · rw [hk2] at hall
      simp only [List.all_cons, Bool.and_eq_true] at hall
      exact isWordChar_not_pySpace kc hall.1
  · rw [List.append_assoc, getLastD_append_right _ _ (fun he =>
      hfne (List.append_eq_nil.mp he).2 ) ' ']
    rw [getLastD_append_right _ _ hfne ' ']
    exact hflast

theorem joinWith_head_last : ∀ lines : List Str, ¬ lines = [] →
    (∀ l ∈ lines, ¬ l = [] ∧ isPySpace (l.headD ' ') = false ∧
      isPySpace (l.getLastD ' ') = false) →
    isPySpace ((joinWith ['\n'] lines).headD ' ') = false ∧
    isPySpace ((joinWith ['\n'] lines).getLastD ' ') = false := by
  intro lines
  induction lines with
  | nil => intro h; exact absurd rfl h
  | cons p rest ih =>
    intro _ hall
    rcases rest with _ | ⟨q, qs⟩
    · have := hall p (by simp)
      exact ⟨this.2.1, this.2.2⟩
    · have hp := hall p (by simp)
      have hjne : ¬ joinWith ['\n'] (q :: qs) = [] :=
        joinWith_ne_nil ['\n'] (q :: qs) (by simp)
          (fun l hl => (hall l (by simp [hl])).1)
      have hih := ih (by simp) (fun l hl => hall l (by simp [hl]))
      constructor
      · show isPySpace ((p ++ ['\n'] ++ joinWith ['\n'] (q :: qs)).headD ' ') = false
        rw [headD_append_left _ _ (fun he =>
          hp.1 (List.append_eq_nil.mp he).1) ' ']
        rw [headD_append_left p ['\n'] hp.1 ' ']
        exact hp.2.1
      · show isPySpace ((p ++ ['\n'] ++ joinWith ['\n'] (q :: qs)).getLastD ' ') = false
        rw [getLastD_append_right _ _ hjne ' ']
        exact hih.2

theorem decode_encode_meta (kvs : List (Str × Value)) (hne : ¬ kvs = [])
    (hnd : (kvs.map Prod.fst).Nodup)
    (hks : kvs.all (fun kv => metaKeySafe kv.1) = true)
    (hvs : kvs.all (fun kv => scalarSafe kv.2) = true) :
    decode (encode (.obj kvs)) = .ok (.obj (sortByKey kvs)) := by
  rw [encode_obj_meta kvs hne hvs, writeMetadata_scalar kvs hvs hnd]
  have hks' : (sortByKey kvs).all (fun kv => metaKeySafe kv.1) = true :=
    sortByKey_all _ kvs hks
  have hvs' : (sortByKey kvs).all (fun kv => scalarSafe kv.2) = true :=
    sortByKey_all _ kvs hvs
  have hnd' : ((sortByKey kvs).map Prod.fst).Nodup := sortByKey_keys_nodup kvs hnd
  have hne' : ¬ sortByKey kvs = [] := sortByKey_ne_nil kvs hne
  have hlf : ∀ kv ∈ sortByKey kvs,
      ¬ (kv.1 ++ META_SEPARATOR ++ formatValue kv.2) = [] ∧
      (kv.1 ++ META_SEPARATOR ++ formatValue kv.2).contains '\n' = false ∧
      isPySpace ((kv.1 ++ META_SEPARATOR ++ formatValue kv.2).headD ' ') = false ∧
      isPySpace ((kv.1 ++ META_SEPARATOR ++ formatValue kv.2).getLastD ' ') = false :=
    fun kv hm => line_facts kv (List.all_eq_true.mp hks' kv hm)
      (List.all_eq_true.mp hvs' kv hm)
  have hlinesne : ¬ (sortByKey kvs).map
      (fun kv => kv.1 ++ META_SEPARATOR ++ formatValue kv.2) = [] := by
    intro he
    exact hne' (List.map_eq_nil.mp he)
  have hlmem : ∀ l ∈ (sortByKey kvs).map
      (fun kv => kv.1 ++ META_SEPARATOR ++ formatValue kv.2),
      ¬ l = [] ∧ isPySpace (l.headD ' ') = false ∧
      isPySpace (l.getLastD ' ') = false := by
    intro l hl
    obtain ⟨kv, hkv, heq⟩ := List.mem_map.mp hl
    obtain ⟨h1, _, h3, h4⟩ := hlf kv hkv
    exact ⟨heq ▸ h1, heq ▸ h3, heq ▸ h4⟩
  have hjw := joinWith_head_last _ hlinesne hlmem
  unfold decode
  rw [if_neg ?hempty]
  case hempty =>
    rw [isEmpty_false_of_ne_nil' _ (joinWith_ne_nil _ _ hlinesne
      (fun l hl => (hlmem l hl).1))]
    exact Bool.false_ne_true
  rw [pyStrip_eq_self _ (Or.inl hjw.1) (Or.inl hjw.2)]
  rw [splitOnCh_joinWith '\n' _ hlinesne (fun l hl => by
    obtain ⟨kv, hkv, heq⟩ := List.mem_map.mp hl
    exact heq ▸ (hlf kv hkv).2.1)]
  rw [decodeLoop_meta (sortByKey kvs) [] hks' hvs']
  rw [foldl_dictSet_nodup (sortByKey kvs) [] (by simpa using hnd')]
  dsimp only
  rw [show ([] : List (Str × Value)) ++ sortByKey kvs = sortByKey kvs from by simp]
  exact decodeFinish_meta (sortByKey kvs) hks' hvs' hnd'

theorem scalar_structValueEq_refl (v : Value) (h : scalarSafe v = true) :
    structValueEq v v = true := by
  rcases v with _ | b | n | l | s | xs | kvs
  · rfl
  · simp [structValueEq]
  · simp [structValueEq]
  · exact absurd h (by simp [scalarSafe])
  · exact absurd h (by simp [scalarSafe])
  · exact absurd h (by simp [scalarSafe])
  · exact absurd h (by simp [scalarSafe])

theorem find_nodup_mem {α : Type} : ∀ (l : List (Str × α)) (k : Str) (v : α),
    (l.map Prod.fst).Nodup → (k, v) ∈ l →
    l.find? (fun kv => kv.1 = k) = some (k, v) := by
  intro l
  induction l with
  | nil =>
    intro k v _ hm
    exact absurd hm (by simp)
  | cons x xs ih =>
    intro k v hnd hm
    simp only [List.map_cons, List.nodup_cons] at hnd
    by_cases hx : x.1 = k
    · rw [List.find?_cons_of_pos _ (by simp [hx])]
      rcases List.mem_cons.mp hm with hm | hm
      · rw [hm]
      · exact absurd (hx ▸ List.mem_map_of_mem Prod.fst hm) hnd.1
    · rw [List.find?_cons_of_neg _ (by simp [hx])]
      rcases List.mem_cons.mp hm with hm | hm
      · exact absurd (congrArg Prod.fst hm).symm hx
      · exact ih k v hnd.2 hm

theorem structObjSub_of_find (kvs ks : List (Str × Value))
    (h : ∀ kv ∈ kvs, ks.find? (fun kw => kw.1 = kv.1) = some kv ∧
      scalarSafe kv.2 = true) :
    structValueEq.structObjSub kvs ks = true := by
  induction kvs with
  | nil => rfl
  | cons kv rest ih =>
    obtain ⟨k, v⟩ := kv
    show ((match ks.find? (fun kw => kw.1 = k) with
      | some kw => structValueEq v kw.2
      | none => false) && structValueEq.structObjSub rest ks) = true
    rw [(h (k, v) (by simp)).1]
    dsimp only
    rw [scalar_structValueEq_refl v (h (k, v) (by simp)).2]
    rw [ih (fun kv hm => h kv (by simp [hm]))]
    rfl

/-- C1: amended.  On flat objects with distinct `\w`-word keys and
Null/Bool/integer values, `decode (encode v)` succeeds and returns the
key-sorted object, which is equal to `v` under deep structural equality
(order-insensitive on objects): booleans decode to booleans and integers to
integers.  The universal claim over all value trees fails: a scalar root is
encoded as its JSON fallback, which decode does not invert (see the
counterexample); float values `x.0` and type-protected metadata strings
also break it. -/
theorem c1_flat_scalar_roundtrip (kvs : List (Str × Value))
    (hne : ¬ kvs = [])
    (hnd : (kvs.map Prod.fst).Nodup)
    (hks : kvs.all (fun kv => metaKeySafe kv.1) = true)
    (hvs : kvs.all (fun kv => scalarSafe kv.2) = true) :
    decode (encode (.obj kvs)) = .ok (.obj (sortByKey kvs)) ∧
    structValueEq (.obj kvs) (.obj (sortByKey kvs)) = true := by
  refine ⟨decode_encode_meta kvs hne hnd hks hvs, ?_⟩
  show (decide (kvs.length = (sortByKey kvs).length) &&
    structValueEq.structObjSub kvs (sortByKey kvs)) = true
  rw [structObjSub_of_find kvs (sortByKey kvs) ?hfind]
  case hfind =>
    intro kv hm
    refine ⟨?_, List.all_eq_true.mp hvs kv hm⟩
    obtain ⟨k, v⟩ := kv
    exact find_nodup_mem (sortByKey kvs) k v (sortByKey_keys_nodup kvs hnd)
      ((sortByKey_perm kvs).mem_iff.mpr hm)
  rw [(sortByKey_perm kvs).length_eq]
  simp

/-- C1 witness: a two-entry flat object with a Bool and an integer
round-trips to its key-sorted form, structurally equal to the original. -/
theorem c1_flat_scalar_roundtrip_witness :
    decode (encode (.obj [(sl "b", .int 2), (sl "a", .bool true)])) =
      .ok (.obj (sortByKey [(sl "b", .int 2), (sl "a", .bool true)])) ∧
    structValueEq (.obj [(sl "b", .int 2), (sl "a", .bool true)])
      (.obj (sortByKey [(sl "b", .int 2), (sl "a", .bool true)])) = true :=
  c1_flat_scalar_roundtrip [(sl "b", .int 2), (sl "a", .bool true)]
    (by simp) (by decide) (by decide) (by decide)

end Zon
